import Mathlib

/-!
Shallow embedding of the ontology subsetting engine in `gist_schema.py`
(repository `stevenchalem/universe`), together with proofs of the
specification claims about it.

The Python module maintains two registries (`classes`, `properties`) keyed
by local name; here they are association lists `List (String × _)` with the
dict invariants (unique keys) taken as hypotheses where they matter.
Python sets of names become `Finset String`.  The unbounded worklist loops
(`get_ancestors`, `get_property_ancestors`) are embedded with explicit fuel
returning `Option` (`none` = the loop did not finish within the fuel); the
fuel actually used is proven sufficient, which is the termination claim.
-/

/-- Mirrors the `ClassInfo` dataclass of `gist_schema.py`. -/
structure ClassInfo where
  uri : String
  local_name : String
  label : Option String := none
  definition : Option String := none
  superclasses : List String := []
  subclasses : List String := []
  is_defined_class : Bool := false
deriving Repr, DecidableEq

/-- Mirrors the `PropertyInfo` dataclass of `gist_schema.py`. -/
structure PropertyInfo where
  uri : String
  local_name : String
  label : Option String := none
  definition : Option String := none
  domains : List String := []
  ranges : List String := []
  is_object_property : Bool := true
  superproperties : List String := []
  subproperties : List String := []
deriving Repr, DecidableEq

/-- Python dict lookup `m[k]` / `k in m`, over an association list. -/
def lookupName {α : Type} (m : List (String × α)) (k : String) : Option α :=
  (m.find? (fun p => p.1 == k)).map Prod.snd

/-- Replace the value stored under key `k` by `f` applied to it (identity on
every entry whose key differs); models in-place mutation of one dict entry. -/
def updateEntry {α : Type} (m : List (String × α)) (k : String) (f : α → α) :
    List (String × α) :=
  m.map (fun p => if p.1 == k then (p.1, f p.2) else p)

/-- The loop `for local, info in items(): for super_name in ...superlist:
if super_name in m: m[super_name].childlist.append(local)` — the second pass
of `_extract_classes` (lines 190–194) and of `_extract_properties`
(lines 274–278), generic over which field is the parent/child list. -/
def addInverseEdges {α : Type} (getSups : α → List String)
    (pushChild : String → α → α) (m : List (String × α)) :
    List (String × α) :=
  m.foldl (fun acc p =>
    (getSups p.2).foldl (fun acc2 sup =>
      if (lookupName acc2 sup).isSome then updateEntry acc2 sup (pushChild p.1)
      else acc2) acc) m

/-- `_extract_classes` second pass: push each class onto the subclass list of
every in-model superclass. -/
def build_subclass_relationships (classes : List (String × ClassInfo)) :
    List (String × ClassInfo) :=
  addInverseEdges (fun ci => ci.superclasses)
    (fun loc ci => { ci with subclasses := ci.subclasses ++ [loc] }) classes

/-- `_extract_properties` second pass: push each property onto the subproperty
list of every in-model superproperty. -/
def build_subproperty_relationships (props : List (String × PropertyInfo)) :
    List (String × PropertyInfo) :=
  addInverseEdges (fun pi => pi.superproperties)
    (fun loc pi => { pi with subproperties := pi.subproperties ++ [loc] }) props

/-- The in-memory model after `_extract_classes` / `_extract_properties`:
the two registries of `GistSchema` (the RDF graph itself is consumed at load
time and not part of the claims). -/
structure GistSchema where
  classes : List (String × ClassInfo)
  properties : List (String × PropertyInfo)
deriving Repr, DecidableEq

/-- Name → direct-parent-names table; `get_ancestors` only consults key
membership and the superclass list, `get_property_ancestors` likewise with
superproperties, so both run the same worklist loop over such a table. -/
def classTable (s : GistSchema) : List (String × List String) :=
  s.classes.map (fun p => (p.1, p.2.superclasses))

/-- Superproperty table for `get_property_ancestors`. -/
def propTable (s : GistSchema) : List (String × List String) :=
  s.properties.map (fun p => (p.1, p.2.superproperties))

/-- The worklist loop shared by `get_ancestors` (lines 286–292) and
`get_property_ancestors` (lines 319–325):
`while to_visit: current = to_visit.pop(); if current in ancestors or
current not in table: continue; ancestors.add(current);
to_visit.extend(table[current])`.
`pop()` takes the last element and `extend` appends, hence
`dropLast`/`++`.  Fuel bounds the number of iterations; `none` means the
loop was still running when the fuel ran out. -/
def closureAux (table : List (String × List String)) :
    Nat → List String → Finset String → Option (Finset String)
  | 0, to_visit, ancestors =>
      if to_visit.isEmpty then some ancestors else none
  | fuel + 1, to_visit, ancestors =>
      match to_visit.getLast? with
      | none => some ancestors
      | some current =>
          if current ∈ ancestors then
            closureAux table fuel to_visit.dropLast ancestors
          else
            match lookupName table current with
            | none => closureAux table fuel to_visit.dropLast ancestors
            | some sups =>
                closureAux table fuel (to_visit.dropLast ++ sups)
                  (insert current ancestors)

/-- Total length of the parent lists of the entries whose key is not yet
visited: an upper bound on how many names the loop can still `extend` with. -/
def sumSupers (table : List (String × List String)) (visited : Finset String) :
    Nat :=
  ((table.filter (fun p => decide (p.1 ∉ visited))).map
    (fun p => p.2.length)).sum

/-- Run the worklist loop with fuel that is proven sufficient
(`closureRun_isSome`): each iteration pops one name, and names are pushed
only when a key is newly visited, at most its parent-list length. -/
def closureRun (table : List (String × List String)) (init : List String) :
    Option (Finset String) :=
  closureAux table (init.length + sumSupers table ∅) init ∅

/-- `GistSchema.get_ancestors` (lines 280–294). -/
def get_ancestors (s : GistSchema) (class_name : String) : Finset String :=
  match lookupName s.classes class_name with
  | none => ∅
  | some info => (closureRun (classTable s) info.superclasses).getD ∅

/-- `GistSchema.get_property_ancestors` (lines 313–327). -/
def get_property_ancestors (s : GistSchema) (prop_name : String) :
    Finset String :=
  match lookupName s.properties prop_name with
  | none => ∅
  | some info => (closureRun (propTable s) info.superproperties).getD ∅

/-- The subclass list of `name`, or `[]` when absent. -/
def subclassesOf (s : GistSchema) (name : String) : List String :=
  match lookupName s.classes name with
  | some info => info.subclasses
  | none => []

/-- One iteration of the `for _ in range(max_depth)` loop of
`get_descendants` (lines 303–309): state is
(descendants so far, current level).  Each name of the current level that is
unvisited and in the model is added, and the next level is the union of the
subclass lists of those newly added names. -/
def descStep (s : GistSchema) (st : Finset String × Finset String) :
    Finset String × Finset String :=
  let newly := st.2.filter (fun c => c ∉ st.1 ∧ (lookupName s.classes c).isSome)
  (st.1 ∪ newly, newly.biUnion (fun c => (subclassesOf s c).toFinset))

/-- `max_depth` iterations of `descStep`. -/
def descIter (s : GistSchema) : Nat → Finset String × Finset String →
    Finset String × Finset String
  | 0, st => st
  | n + 1, st => descIter s n (descStep s st)

/-- `GistSchema.get_descendants` (lines 296–311). -/
def get_descendants (s : GistSchema) (class_name : String)
    (max_depth : Nat := 2) : Finset String :=
  match lookupName s.classes class_name with
  | none => ∅
  | some info =>
      (descIter s max_depth (∅, info.subclasses.toFinset)).1

/-- The `TOPIC_SEEDS` table (lines 17–65). -/
def TOPIC_SEEDS : List (String × List String) := [
  ("organizations", [
    "Organization", "GovernmentOrganization", "CountryGovernment",
    "SubCountryGovernment", "IntergovernmentalOrganization", "Person"]),
  ("events", [
    "Event", "HistoricalEvent", "ContemporaryEvent", "PhysicalEvent",
    "ScheduledEvent", "Determination", "Transaction", "Task", "Project"]),
  ("time", [
    "TimeInterval", "TemporalRelation"]),
  ("geo", [
    "GeoLocation", "GeoPoint", "GeoRegion", "GeoVolume", "GeoRoute",
    "GovernedGeoRegion", "CountryGeoRegion", "Landmark", "Building",
    "PhysicalAddress"]),
  ("agreements", [
    "Agreement", "Contract", "Commitment", "ContingentObligation",
    "Offer", "Account", "ContractTerm"]),
  ("quantities", [
    "Magnitude", "Aspect", "UnitOfMeasure", "ReferenceValue",
    "SimpleUnitOfMeasure", "CoherentProductUnitOfMeasure",
    "StandardUnitOfMeasure", "ProductUnitOfMeasure", "RatioUnitOfMeasure",
    "UnitGroup"]),
  ("content", [
    "Content", "ContentExpression", "FormattedContent", "Message",
    "IntellectualProperty", "KnowledgeConcept", "ID", "Address",
    "ElectronicAddress"]),
  ("collections", [
    "Collection", "OrderedCollection", "OrderedMember", "ControlledVocabulary",
    "Network", "NetworkNode", "NetworkLink"]),
  ("categories", [
    "Category", "Tag", "Behavior", "ProductCategory", "EquipmentType",
    "MediaType", "GeneralMediaType", "Discipline"]),
  ("artifacts", [
    "PhysicalIdentifiableItem", "Equipment", "Landmark", "Building",
    "PhysicalSubstance", "LivingThing"]),
  ("intentions", [
    "Intention", "Requirement", "Restriction", "Permission", "Function",
    "Specification", "CatalogItem", "EventSpecification"])]

/-- The `TOPIC_PROPERTIES` table (lines 68–113). -/
def TOPIC_PROPERTIES : List (String × List String) := [
  ("organizations", [
    "hasMember", "isMemberOf", "isGovernedBy", "hasJurisdictionOver",
    "isUnderJurisdictionOf", "owns", "isOwnedBy"]),
  ("events", [
    "isParticipantIn", "hasParticipant", "isAffectedBy", "affects",
    "isTriggeredBy", "produces", "isProducedBy", "occursIn"]),
  ("time", [
    "atDateTime", "startDateTime", "endDateTime",
    "actualStartDateTime", "actualEndDateTime", "actualStartDate",
    "actualEndDate",
    "plannedStartDateTime", "plannedEndDateTime", "plannedStartDate",
    "plannedEndDate",
    "birthDate", "deathDate", "hasStart", "hasEnd", "hasGiver",
    "hasRecipient"]),
  ("geo", [
    "hasPhysicalLocation", "isGeoContainedIn", "latitude", "longitude",
    "refersTo", "hasAddress"]),
  ("agreements", [
    "hasParty", "hasGiver", "hasRecipient", "offersToProvide",
    "offersToReceive", "isUnderJurisdictionOf", "conformsTo"]),
  ("quantities", [
    "hasMagnitude", "hasAspect", "hasUnitOfMeasure", "numericValue",
    "conversionFactor", "conversionOffset", "hasBaseUnit"]),
  ("content", [
    "isExpressedIn", "isRenderedOn", "isAbout", "uniqueText", "containedText",
    "name", "description", "comesFromAgent", "goesToAgent"]),
  ("collections", [
    "isMemberOf", "hasMember", "isDirectPartOf", "hasDirectPart",
    "precedesDirectly", "precedes", "sequence", "providesOrderFor",
    "isFirstMemberOf", "links"]),
  ("categories", [
    "isCategorizedBy", "isAllocatedBy"]),
  ("artifacts", [
    "isMadeUpOf", "hasBiologicalParent"]),
  ("intentions", [
    "allows", "prevents", "requires", "conformsTo"])]

/-- The relevance pass (lines 369–374 of `subset_by_topics`, textually
repeated at lines 396–400 of `subset_by_classes`): for every property of the
model, select it when some domain class lies in the selected class set, or
when it is an object property and some range class lies in the selected
class set. -/
def relevancePass (s : GistSchema) (selected_classes : Finset String)
    (selected_properties : Finset String) : Finset String :=
  s.properties.foldl (fun acc p =>
    let acc1 := if p.2.domains.any (fun d => decide (d ∈ selected_classes))
      then insert p.1 acc else acc
    if p.2.is_object_property &&
        p.2.ranges.any (fun r => decide (r ∈ selected_classes))
      then insert p.1 acc1 else acc1) selected_properties

/-- `SchemaSubset`: a schema reference plus the two selected name sets. -/
structure SchemaSubset where
  schema : GistSchema
  class_names : Finset String
  property_names : Finset String

/-- `GistSchema.subset_by_topics` (lines 329–381), with the two module-level
seed tables passed explicitly (`subset_by_topics` below instantiates them
with `TOPIC_SEEDS` / `TOPIC_PROPERTIES`). -/
def subset_by_topicsWith (seedT propT : List (String × List String))
    (s : GistSchema) (topics : List String) (include_descendants : Bool) :
    SchemaSubset :=
  let seeded : Finset String × Finset String :=
    topics.foldl (fun acc topic =>
      let acc1 := match lookupName seedT topic with
        | some seeds => seeds.foldl (fun a cls =>
            if (lookupName s.classes cls).isSome then insert cls a else a) acc.1
        | none => acc.1
      let acc2 := match lookupName propT topic with
        | some ps => ps.foldl (fun a prop =>
            if (lookupName s.properties prop).isSome then insert prop a else a)
            acc.2
        | none => acc.2
      (acc1, acc2)) (∅, ∅)
  let expanded_classes :=
    seeded.1 ∪ seeded.1.biUnion (fun cls => get_ancestors s cls)
  let expanded_classes :=
    if include_descendants then
      expanded_classes ∪ seeded.1.biUnion (fun cls => get_descendants s cls 2)
    else expanded_classes
  let selected_properties := relevancePass s expanded_classes seeded.2
  let expanded_properties :=
    selected_properties ∪
      selected_properties.biUnion (fun prop => get_property_ancestors s prop)
  ⟨s, expanded_classes, expanded_properties⟩

/-- `GistSchema.subset_by_topics` at the module-level seed tables. -/
def subset_by_topics (s : GistSchema) (topics : List String)
    (include_descendants : Bool := true) : SchemaSubset :=
  subset_by_topicsWith TOPIC_SEEDS TOPIC_PROPERTIES s topics
    include_descendants

/-- `GistSchema.subset_by_classes` (lines 383–407). -/
def subset_by_classes (s : GistSchema) (class_names : List String) :
    SchemaSubset :=
  let selected_classes := class_names.foldl (fun acc cls =>
    if (lookupName s.classes cls).isSome then
      insert cls acc ∪ get_ancestors s cls
    else acc) ∅
  let selected_properties := relevancePass s selected_classes ∅
  let expanded_properties :=
    selected_properties ∪
      selected_properties.biUnion (fun prop => get_property_ancestors s prop)
  ⟨s, selected_classes, expanded_properties⟩

/-- `defn = d[:n]; if len(d) > n: defn += "..."` — the truncation rule used
for every definition string in `to_prompt_text`. -/
def truncateDefn (d : String) (max_definition_len : Nat) : String :=
  if d.length > max_definition_len then d.take max_definition_len ++ "..."
  else d

/-- Python `"  " * indent`. -/
def indentOf (indent : Nat) : String :=
  String.join (List.replicate indent "  ")

/-- The recursive `format_class` inner function of `to_prompt_text`
(lines 439–463): renders one class and its subset-restricted subclasses,
threading the shared `visited` set.  The fuel bounds the recursion depth
(`to_prompt_text` passes one more than the subset size, which can never be
exhausted since every recursive call visits a new subset member); `none`
models the `KeyError` the source would raise if a subset name escaped the
class registry, and fuel exhaustion. -/
def format_class (sub : SchemaSubset) (max_definition_len : Nat) :
    Nat → String → Nat → Finset String → Option (String × Finset String)
  | 0, _, _, _ => none
  | fuel + 1, name, indent, visited =>
    if name ∈ visited ∨ name ∉ sub.class_names then some ("", visited)
    else
      match lookupName sub.schema.classes name with
      | none => none
      | some info =>
          let visited1 := insert name visited
          let pre := indentOf indent
          let marker := if info.is_defined_class then " [defined]" else ""
          let result := pre ++ "gist:" ++ name ++ marker ++ "\n"
          let result := match info.definition with
            | some d =>
                if d != "" then
                  result ++ pre ++ "  " ++
                    truncateDefn d max_definition_len ++ "\n"
                else result
            | none => result
          (info.subclasses.mergeSort (fun a b => a ≤ b)).foldl
            (fun st sb =>
              match st with
              | none => none
              | some (acc, vis) =>
                  if sb ∈ sub.class_names then
                    match format_class sub max_definition_len fuel sb
                        (indent + 1) vis with
                    | none => none
                    | some (txt, vis2) => some (acc ++ txt, vis2)
                  else some (acc, vis))
            (some (result, visited1))

/-- The per-property block of `to_prompt_text` (lines 476–489 for object
properties, 498–512 for datatype properties: the two loops are textually
identical except that datatype ranges keep their `xsd:` prefix instead of
receiving a `gist:` one, selected here by `isData`). -/
def propLines (info : PropertyInfo) (max_definition_len : Nat)
    (isData : Bool) (name : String) : List String :=
  let ls := ["gist:" ++ name]
  let ls := match info.definition with
    | some d =>
        if d != "" then ls ++ ["  " ++ truncateDefn d max_definition_len]
        else ls
    | none => ls
  let constraints : List String :=
    (if info.domains.isEmpty then [] else
      ["Domain: " ++
        String.intercalate ", " (info.domains.map (fun d => "gist:" ++ d))]) ++
    (if info.ranges.isEmpty then [] else
      [if isData then
        "Range: " ++ String.intercalate ", "
          (info.ranges.map (fun r =>
            if r.startsWith "xsd:" then r else "gist:" ++ r))
      else
        "Range: " ++ String.intercalate ", "
          (info.ranges.map (fun r => "gist:" ++ r))])
  let ls := if constraints.isEmpty then ls
    else ls ++ ["  [" ++ String.intercalate "; " constraints ++ "]"]
  ls ++ [""]

/-- `SchemaSubset.to_prompt_text` (lines 418–514).  Python iterates name
sets and then sorts; here the sets are sorted up front, which yields the
same (sorted) `roots` and property lists.  `none` propagates the `KeyError`
case of `format_class`. -/
def to_prompt_text (sub : SchemaSubset) (max_definition_len : Nat := 120) :
    Option String :=
  let lines0 : List String := [
    "# gist Schema (subset)",
    "Prefix: gist",
    "Namespace: https://w3id.org/semanticarts/ns/ontology/gist/",
    "",
    "## Classes",
    ""]
  let roots := (Finset.sort (fun a b => a ≤ b) sub.class_names).filter
    (fun name =>
      match lookupName sub.schema.classes name with
      | none => false
      | some info =>
          !(info.superclasses.any (fun sup => decide (sup ∈ sub.class_names))))
  let afterRoots : Option (List String × Finset String) :=
    roots.foldl (fun st root =>
      match st with
      | none => none
      | some (lines, visited) =>
          match format_class sub max_definition_len
              (sub.class_names.card + 1) root 0 visited with
          | none => none
          | some (txt, visited2) => some (lines ++ [txt], visited2))
      (some (lines0, ∅))
  match afterRoots with
  | none => none
  | some (lines, _) =>
      let obj_props := (Finset.sort (fun a b => a ≤ b)
          sub.property_names).filter (fun p =>
        match lookupName sub.schema.properties p with
        | some info => info.is_object_property
        | none => false)
      let lines := if obj_props.isEmpty then lines else
        lines ++ ["", "## Object Properties", ""] ++
          obj_props.foldl (fun ls name =>
            match lookupName sub.schema.properties name with
            | some info => ls ++ propLines info max_definition_len false name
            | none => ls) []
      let data_props := (Finset.sort (fun a b => a ≤ b)
          sub.property_names).filter (fun p =>
        match lookupName sub.schema.properties p with
        | some info => !info.is_object_property
        | none => false)
      let lines := if data_props.isEmpty then lines else
        lines ++ ["## Datatype Properties", ""] ++
          data_props.foldl (fun ls name =>
            match lookupName sub.schema.properties name with
            | some info => ls ++ propLines info max_definition_len true name
            | none => ls) []
      some (String.intercalate "\n" lines)

/-- One subclass edge of the model: `D` is listed in the subclass list of the
(present) class `C`. -/
def subclassEdge (s : GistSchema) (C D : String) : Prop :=
  ∃ info, lookupName s.classes C = some info ∧ D ∈ info.subclasses

/-- A downward chain of exactly `n ≥ 1` subclass edges from `C` to `D`,
every intermediate node being present in the model (as `get_descendants`
requires before expanding a node). -/
inductive DownChainN (s : GistSchema) : String → String → Nat → Prop
  | single {C D : String} {info : ClassInfo} :
      lookupName s.classes C = some info → D ∈ info.subclasses →
      DownChainN s C D 1
  | step {C D E : String} {n : Nat} {info : ClassInfo} :
      DownChainN s C D n → lookupName s.classes D = some info →
      E ∈ info.subclasses → DownChainN s C E (n + 1)

/-- The model with no classes and no properties (what loading an ontology
with no in-namespace declarations produces). -/
def emptySchema : GistSchema := ⟨[], []⟩

/-- A raw class registry (as `_extract_classes` leaves it before the
subclass pass): `Event <: PhysicalEvent <: Thing`. -/
def exRawClasses : List (String × ClassInfo) :=
  [("Thing",
    { uri := "https://w3id.org/semanticarts/gist/Thing",
      local_name := "Thing" }),
   ("PhysicalEvent",
    { uri := "https://w3id.org/semanticarts/gist/PhysicalEvent",
      local_name := "PhysicalEvent", superclasses := ["Thing"] }),
   ("Event",
    { uri := "https://w3id.org/semanticarts/gist/Event",
      local_name := "Event", superclasses := ["PhysicalEvent"] })]

/-- A raw property registry with one superproperty edge. -/
def exRawProps : List (String × PropertyInfo) :=
  [("hasParticipant",
    { uri := "https://w3id.org/semanticarts/gist/hasParticipant",
      local_name := "hasParticipant" }),
   ("hasGiver",
    { uri := "https://w3id.org/semanticarts/gist/hasGiver",
      local_name := "hasGiver", superproperties := ["hasParticipant"] })]

/-- The model built from `exRawClasses`/`exRawProps` by the two inverse-edge
passes. -/
def exSchema : GistSchema :=
  ⟨build_subclass_relationships exRawClasses,
   build_subproperty_relationships exRawProps⟩

/-- A model used to exercise the relevance pass and the topic path: one
`TimeInterval` class with subclass `Event`, one datatype property on
`Event`, one datatype property on an unrelated absent class. -/
def wSchema : GistSchema :=
  ⟨[("TimeInterval",
     { uri := "https://w3id.org/semanticarts/gist/TimeInterval",
       local_name := "TimeInterval", subclasses := ["Event"] }),
    ("Event",
     { uri := "https://w3id.org/semanticarts/gist/Event",
       local_name := "Event", superclasses := ["TimeInterval"] })],
   [("eventDate",
     { uri := "https://w3id.org/semanticarts/gist/eventDate",
       local_name := "eventDate", domains := ["Event"],
       ranges := ["xsd:date"], is_object_property := false }),
    ("unrelatedDate",
     { uri := "https://w3id.org/semanticarts/gist/unrelatedDate",
       local_name := "unrelatedDate", domains := ["Widget"],
       ranges := ["xsd:date"], is_object_property := false })]⟩


/-- The invariant carried through the BFS of `get_descendants`: after `j`
iterations every collected name has a chain of length at most `j`, and
every name of the current level has a chain of length exactly `j + 1`. -/
def DescInv (s : GistSchema) (C : String) (j : Nat)
    (st : Finset String × Finset String) : Prop :=
  (∀ y ∈ st.1, ∃ n, n ≤ j ∧ DownChainN s C y n) ∧
  (∀ y ∈ st.2, DownChainN s C y (j + 1))

/-- `c` is a seed class of one of the requested topics that exists in the
model: what the seed-gathering loop of `subset_by_topics` (lines 343–348)
collects. -/
def TopicSeeded (seedT : List (String × List String)) (s : GistSchema)
    (topics : List String) (c : String) : Prop :=
  ∃ t ∈ topics, ∃ seeds, lookupName seedT t = some seeds ∧ c ∈ seeds ∧
    (lookupName s.classes c).isSome

/-- `q` is a seed property of one of the requested topics that exists in
the model: what the property-gathering loop of `subset_by_topics`
(lines 350–354) collects. -/
def TopicPropSeeded (propT : List (String × List String)) (s : GistSchema)
    (topics : List String) (q : String) : Prop :=
  ∃ t ∈ topics, ∃ ps2, lookupName propT t = some ps2 ∧ q ∈ ps2 ∧
    (lookupName s.properties q).isSome

/-- One step of the inner loop of `addInverseEdges`: append `loc` to the
child list of `sup` when `sup` is a key. -/
def pushStep {α : Type} (pushChild : String → α → α) (loc : String)
    (acc : List (String × α)) (sup : String) : List (String × α) :=
  if (lookupName acc sup).isSome then updateEntry acc sup (pushChild loc)
  else acc

/-- The child list (through `getChildren`) stored under key `k`, `[]` when
the key is absent. -/
def childrenOfM {α : Type} (getChildren : α → List String)
    (m : List (String × α)) (k : String) : List String :=
  ((lookupName m k).map getChildren).getD []

/-! ### Basic lookup lemmas -/

theorem lookupName_nil {α : Type} (k : String) :
    lookupName ([] : List (String × α)) k = none := rfl

theorem lookupName_cons {α : Type} (p : String × α) (t : List (String × α))
    (k : String) :
    lookupName (p :: t) k = if p.1 = k then some p.2 else lookupName t k := by
  by_cases h : p.1 = k
  · simp [lookupName, List.find?_cons, h]
  · simp [lookupName, List.find?_cons, h]

theorem lookupName_isSome_iff {α : Type} {m : List (String × α)} {k : String} :
    (lookupName m k).isSome ↔ ∃ v, (k, v) ∈ m := by
  induction m with
  | nil => simp [lookupName_nil]
  | cons p t ih =>
      rw [lookupName_cons]
      by_cases h : p.1 = k
      · subst h
        rw [if_pos rfl]
        constructor
        · intro _
          exact ⟨p.2, List.mem_cons_self _ _⟩
        · intro _
          rfl
      · simp only [if_neg h, ih, List.mem_cons]
        constructor
        · rintro ⟨v, hv⟩
          exact ⟨v, Or.inr hv⟩
        · rintro ⟨v, hv | hv⟩
          · exact absurd (congrArg Prod.fst hv).symm h
          · exact ⟨v, hv⟩

theorem lookupName_isSome_of_mem {α : Type} {m : List (String × α)}
    {k : String} {v : α} (h : (k, v) ∈ m) : (lookupName m k).isSome :=
  lookupName_isSome_iff.mpr ⟨v, h⟩

theorem lookupName_mem {α : Type} {m : List (String × α)} {k : String} {v : α}
    (h : lookupName m k = some v) : (k, v) ∈ m := by
  induction m with
  | nil => simp [lookupName_nil] at h
  | cons p t ih =>
      rw [lookupName_cons] at h
      by_cases hk : p.1 = k
      · rw [if_pos hk] at h
        injection h with h2
        subst hk
        subst h2
        exact List.mem_cons_self _ _
      · rw [if_neg hk] at h
        exact List.mem_cons_of_mem _ (ih h)

theorem lookupName_map {α β : Type} (f : α → β) (m : List (String × α))
    (k : String) :
    lookupName (m.map (fun p => (p.1, f p.2))) k = (lookupName m k).map f := by
  induction m with
  | nil => rfl
  | cons p t ih =>
      rw [List.map_cons, lookupName_cons, lookupName_cons]
      by_cases h : p.1 = k
      · simp [h]
      · simp [h, ih]

theorem lookupName_classTable (s : GistSchema) (k : String) :
    lookupName (classTable s) k =
      (lookupName s.classes k).map (fun ci => ci.superclasses) :=
  lookupName_map _ _ _

theorem lookupName_propTable (s : GistSchema) (k : String) :
    lookupName (propTable s) k =
      (lookupName s.properties k).map (fun pi => pi.superproperties) :=
  lookupName_map _ _ _

/-! ### The worklist loop: invariants and fuel sufficiency -/

theorem getLast?_none_eq_nil {ws : List String} (h : ws.getLast? = none) :
    ws = [] := by
  cases ws with
  | nil => rfl
  | cons a t =>
      have h2 : (a :: t).getLast?.isSome := by
        rw [List.getLast?_eq_getLast _ (by simp)]
        rfl
      rw [h] at h2
      simp at h2

theorem getLast?_decomp {ws : List String} {c : String}
    (h : ws.getLast? = some c) : ws = ws.dropLast ++ [c] := by
  have hne : ws ≠ [] := by
    intro e
    subst e
    simp at h
  have h2 := List.dropLast_append_getLast hne
  have h3 : ws.getLast hne = c := by
    have h4 := List.getLast?_eq_getLast ws hne
    rw [h4] at h
    exact Option.some.inj h
  rw [← h3]
  exact h2.symm

theorem closureAux_acc_subset (table : List (String × List String)) :
    ∀ (fuel : Nat) (ws : List String) (acc r : Finset String),
      closureAux table fuel ws acc = some r → acc ⊆ r := by
  intro fuel
  induction fuel with
  | zero =>
      intro ws acc r h
      simp only [closureAux] at h
      split at h
      · injection h with h2
        subst h2
        exact Finset.Subset.refl _
      · exact absurd h (by simp)
  | succ n ih =>
      intro ws acc r h
      simp only [closureAux] at h
      split at h
      · injection h with h2
        subst h2
        exact Finset.Subset.refl _
      · split at h
        · exact ih _ _ _ h
        · split at h
          · exact ih _ _ _ h
          · exact (Finset.subset_insert _ _).trans (ih _ _ _ h)

theorem closureAux_mem_of_worklist (table : List (String × List String)) :
    ∀ (fuel : Nat) (ws : List String) (acc r : Finset String) (x : String),
      closureAux table fuel ws acc = some r → x ∈ ws →
      (lookupName table x).isSome → x ∈ r := by
  intro fuel
  induction fuel with
  | zero =>
      intro ws acc r x h hx _
      simp only [closureAux] at h
      split at h
      · rename_i hemp
        rw [List.isEmpty_iff] at hemp
        subst hemp
        simp at hx
      · exact absurd h (by simp)
  | succ n ih =>
      intro ws acc r x h hx hsome
      simp only [closureAux] at h
      split at h
      · rename_i hcur
        rw [getLast?_none_eq_nil hcur] at hx
        simp at hx
      · rename_i current hcur
        have hx2 : x ∈ ws.dropLast ∨ x = current := by
          rw [getLast?_decomp hcur] at hx
          rcases List.mem_append.mp hx with h1 | h1
          · exact Or.inl h1
          · right
            simpa using h1
        split at h
        · rename_i hmem
          rcases hx2 with h1 | h1
          · exact ih _ _ _ _ h h1 hsome
          · subst h1
            exact closureAux_acc_subset table _ _ _ _ h hmem
        · split at h
          · rename_i hlk
            rcases hx2 with h1 | h1
            · exact ih _ _ _ _ h h1 hsome
            · subst h1
              rw [hlk] at hsome
              simp at hsome
          · rcases hx2 with h1 | h1
            · exact ih _ _ _ _ h (List.mem_append_left _ h1) hsome
            · subst h1
              exact closureAux_acc_subset table _ _ _ _ h
                (Finset.mem_insert_self _ _)

theorem closureAux_closed (table : List (String × List String)) :
    ∀ (fuel : Nat) (ws : List String) (acc r : Finset String),
      closureAux table fuel ws acc = some r →
      (∀ y ∈ acc, ∃ sups, lookupName table y = some sups ∧
        ∀ z ∈ sups, (lookupName table z).isSome → z ∈ acc ∨ z ∈ ws) →
      ∀ y ∈ r, ∃ sups, lookupName table y = some sups ∧
        ∀ z ∈ sups, (lookupName table z).isSome → z ∈ r := by
  intro fuel
  induction fuel with
  | zero =>
      intro ws acc r h hinv
      simp only [closureAux] at h
      split at h
      · rename_i hemp
        rw [List.isEmpty_iff] at hemp
        subst hemp
        injection h with h2
        subst h2
        intro y hy
        obtain ⟨sups, hlk, hz⟩ := hinv y hy
        refine ⟨sups, hlk, fun z hzs hzk => ?_⟩
        rcases hz z hzs hzk with h1 | h1
        · exact h1
        · simp at h1
      · exact absurd h (by simp)
  | succ n ih =>
      intro ws acc r h hinv
      simp only [closureAux] at h
      split at h
      · rename_i hcur
        have hws := getLast?_none_eq_nil hcur
        subst hws
        injection h with h2
        subst h2
        intro y hy
        obtain ⟨sups, hlk, hz⟩ := hinv y hy
        refine ⟨sups, hlk, fun z hzs hzk => ?_⟩
        rcases hz z hzs hzk with h1 | h1
        · exact h1
        · simp at h1
      · rename_i current hcur
        have hdec := getLast?_decomp hcur
        split at h
        · rename_i hmem
          refine ih _ _ _ h (fun y hy => ?_)
          obtain ⟨sups, hlk, hz⟩ := hinv y hy
          refine ⟨sups, hlk, fun z hzs hzk => ?_⟩
          rcases hz z hzs hzk with h1 | h1
          · exact Or.inl h1
          · rw [hdec] at h1
            rcases List.mem_append.mp h1 with h2 | h2
            · exact Or.inr h2
            · left
              have : z = current := by simpa using h2
              rw [this]
              exact hmem
        · split at h
          · rename_i hlkc
            refine ih _ _ _ h (fun y hy => ?_)
            obtain ⟨sups, hlk, hz⟩ := hinv y hy
            refine ⟨sups, hlk, fun z hzs hzk => ?_⟩
            rcases hz z hzs hzk with h1 | h1
            · exact Or.inl h1
            · rw [hdec] at h1
              rcases List.mem_append.mp h1 with h2 | h2
              · exact Or.inr h2
              · have hzc : z = current := by simpa using h2
                rw [hzc, hlkc] at hzk
                simp at hzk
          · rename_i sups hlkc
            refine ih _ _ _ h (fun y hy => ?_)
            rcases Finset.mem_insert.mp hy with h1 | h1
            · subst h1
              refine ⟨sups, hlkc, fun z hzs _ => ?_⟩
              exact Or.inr (List.mem_append_right _ hzs)
            · obtain ⟨supsY, hlk, hz⟩ := hinv y h1
              refine ⟨supsY, hlk, fun z hzs hzk => ?_⟩
              rcases hz z hzs hzk with h2 | h2
              · exact Or.inl (Finset.mem_insert_of_mem h2)
              · rw [hdec] at h2
                rcases List.mem_append.mp h2 with h3 | h3
                · exact Or.inr (List.mem_append_left _ h3)
                · left
                  have : z = current := by simpa using h3
                  rw [this]
                  exact Finset.mem_insert_self _ _

theorem sumSupers_nil (v : Finset String) : sumSupers [] v = 0 := rfl

theorem sumSupers_cons (p : String × List String)
    (t : List (String × List String)) (v : Finset String) :
    sumSupers (p :: t) v =
      (if p.1 ∈ v then 0 else p.2.length) + sumSupers t v := by
  by_cases h : p.1 ∈ v
  · simp [sumSupers, List.filter_cons, h]
  · simp [sumSupers, List.filter_cons, h]

theorem sumSupers_mono (table : List (String × List String))
    {a b : Finset String} (h : a ⊆ b) :
    sumSupers table b ≤ sumSupers table a := by
  induction table with
  | nil => simp [sumSupers_nil]
  | cons p t ih =>
      rw [sumSupers_cons, sumSupers_cons]
      have hhead : (if p.1 ∈ b then 0 else p.2.length) ≤
          (if p.1 ∈ a then 0 else p.2.length) := by
        by_cases hb : p.1 ∈ b
        · simp [hb]
        · have ha : p.1 ∉ a := fun hc => hb (h hc)
          simp [ha, hb]
      exact Nat.add_le_add hhead ih

theorem sumSupers_insert (table : List (String × List String))
    (v : Finset String) (current : String) (sups : List String)
    (hnv : current ∉ v) (hlk : lookupName table current = some sups) :
    sumSupers table (insert current v) + sups.length ≤ sumSupers table v := by
  induction table with
  | nil => simp [lookupName_nil] at hlk
  | cons p t ih =>
      rw [lookupName_cons] at hlk
      rw [sumSupers_cons, sumSupers_cons]
      by_cases hpc : p.1 = current
      · rw [if_pos hpc] at hlk
        injection hlk with h2
        subst h2
        have h1 : p.1 ∈ insert current v := by
          rw [hpc]
          exact Finset.mem_insert_self _ _
        have h3 : p.1 ∉ v := by
          rw [hpc]
          exact hnv
        rw [if_pos h1, if_neg h3]
        have hm := sumSupers_mono t (Finset.subset_insert current v)
        omega
      · rw [if_neg hpc] at hlk
        have heq : p.1 ∈ insert current v ↔ p.1 ∈ v := by
          simp [Finset.mem_insert, hpc]
        have h3 := ih hlk
        by_cases hv : p.1 ∈ v
        · rw [if_pos (heq.mpr hv), if_pos hv]
          omega
        · rw [if_neg (fun hc => hv (heq.mp hc)), if_neg hv]
          omega

theorem closureAux_isSome (table : List (String × List String)) :
    ∀ (fuel : Nat) (ws : List String) (acc : Finset String),
      ws.length + sumSupers table acc ≤ fuel →
      (closureAux table fuel ws acc).isSome := by
  intro fuel
  induction fuel with
  | zero =>
      intro ws acc hle
      have h0 : ws.length = 0 := by omega
      have hws : ws = [] := List.length_eq_zero.mp h0
      subst hws
      simp [closureAux]
  | succ n ih =>
      intro ws acc hle
      simp only [closureAux]
      split
      · simp
      · rename_i current hcur
        have hne : ws ≠ [] := by
          intro e
          subst e
          simp at hcur
        have hlen : ws.dropLast.length + 1 = ws.length := by
          rw [List.length_dropLast]
          have hpos : 0 < ws.length := List.length_pos.mpr hne
          omega
        split
        · exact ih _ _ (by omega)
        · split
          · exact ih _ _ (by omega)
          · rename_i hmem _ sups hlk
            have hins := sumSupers_insert table acc current sups hmem hlk
            refine ih _ _ ?_
            rw [List.length_append]
            omega

theorem closureRun_isSome (table : List (String × List String))
    (init : List String) : (closureRun table init).isSome :=
  closureAux_isSome table _ init ∅ (Nat.le_refl _)

theorem get_ancestors_run (s : GistSchema) {name : String} {info : ClassInfo}
    (h : lookupName s.classes name = some info) :
    closureRun (classTable s) info.superclasses =
      some (get_ancestors s name) := by
  obtain ⟨r, hr⟩ := Option.isSome_iff_exists.mp
    (closureRun_isSome (classTable s) info.superclasses)
  rw [hr]
  simp [get_ancestors, h, hr]

theorem get_property_ancestors_run (s : GistSchema) {name : String}
    {info : PropertyInfo} (h : lookupName s.properties name = some info) :
    closureRun (propTable s) info.superproperties =
      some (get_property_ancestors s name) := by
  obtain ⟨r, hr⟩ := Option.isSome_iff_exists.mp
    (closureRun_isSome (propTable s) info.superproperties)
  rw [hr]
  simp [get_property_ancestors, h, hr]

theorem mem_get_ancestors_of_superclass (s : GistSchema) {name : String}
    {info : ClassInfo} (h : lookupName s.classes name = some info)
    {x : String} (hx : x ∈ info.superclasses)
    (hxk : (lookupName s.classes x).isSome) : x ∈ get_ancestors s name := by
  have hrun := get_ancestors_run s h
  refine closureAux_mem_of_worklist (classTable s) _ _ _ _ _ hrun hx ?_
  rw [lookupName_classTable]
  simpa using hxk

theorem get_ancestors_spec (s : GistSchema) (name : String) :
    ∀ y ∈ get_ancestors s name, ∃ infoY,
      lookupName s.classes y = some infoY ∧
      ∀ z ∈ infoY.superclasses, (lookupName s.classes z).isSome →
        z ∈ get_ancestors s name := by
  intro y hy
  cases hlk : lookupName s.classes name with
  | none =>
      simp [get_ancestors, hlk] at hy
  | some info =>
      have hrun := get_ancestors_run s hlk
      have hclosed := closureAux_closed (classTable s) _ _ _ _ hrun
        (by intro y2 hy2; simp at hy2)
      obtain ⟨sups, hlky, hz⟩ := hclosed y hy
      rw [lookupName_classTable] at hlky
      cases hli : lookupName s.classes y with
      | none =>
          rw [hli] at hlky
          simp at hlky
      | some infoY =>
          rw [hli] at hlky
          have hsups : infoY.superclasses = sups := by
            simpa using hlky
          refine ⟨infoY, rfl, fun z hzs hzk => ?_⟩
          refine hz z (hsups ▸ hzs) ?_
          rw [lookupName_classTable]
          simpa using hzk

theorem get_ancestors_keys (s : GistSchema) (name : String) :
    ∀ y ∈ get_ancestors s name, (lookupName s.classes y).isSome := by
  intro y hy
  obtain ⟨infoY, hli, _⟩ := get_ancestors_spec s name y hy
  rw [hli]
  rfl

theorem get_property_ancestors_keys (s : GistSchema) (name : String) :
    ∀ y ∈ get_property_ancestors s name, (lookupName s.properties y).isSome := by
  intro y hy
  cases hlk : lookupName s.properties name with
  | none =>
      simp [get_property_ancestors, hlk] at hy
  | some info =>
      have hrun := get_property_ancestors_run s hlk
      have hclosed := closureAux_closed (propTable s) _ _ _ _ hrun
        (by intro y2 hy2; simp at hy2)
      obtain ⟨sups, hlky, _⟩ := hclosed y hy
      rw [lookupName_propTable] at hlky
      cases hli : lookupName s.properties y with
      | none =>
          rw [hli] at hlky
          simp at hlky
      | some infoY => rfl

/-! ### Characterization of the inverse-edge passes -/

theorem lookupName_updateEntry {α : Type} (m : List (String × α)) (k : String)
    (f : α → α) (a : String) :
    lookupName (updateEntry m k f) a =
      if k = a then (lookupName m a).map f else lookupName m a := by
  induction m with
  | nil => by_cases h : k = a <;> simp [updateEntry, lookupName_nil, h]
  | cons p t ih =>
      simp only [updateEntry, List.map_cons] at *
      by_cases hpk : p.1 = k
      · rw [if_pos (by simp [hpk] : (p.1 == k) = true)]
        rw [lookupName_cons, lookupName_cons]
        by_cases hka : k = a
        · have hpa : p.1 = a := hpk.trans hka
          simp only [hpa, if_pos rfl, if_pos hka]
          rfl
        · have hpa : p.1 ≠ a := fun hc => hka (hpk ▸ hc)
          simp only [if_neg hpa, if_neg hka]
          rw [ih, if_neg hka]
      · rw [if_neg (by simp [hpk] : ¬(p.1 == k) = true)]
        rw [lookupName_cons, lookupName_cons]
        by_cases hpa : p.1 = a
        · have hka : k ≠ a := fun hc => hpk (hpa.trans hc.symm)
          simp only [if_pos hpa, if_neg hka]
        · simp only [if_neg hpa]
          exact ih

theorem lookupName_pushStep_isSome {α : Type} (pushChild : String → α → α)
    (loc : String) (acc : List (String × α)) (sup a : String) :
    (lookupName (pushStep pushChild loc acc sup) a).isSome =
      (lookupName acc a).isSome := by
  unfold pushStep
  split
  · rw [lookupName_updateEntry]
    by_cases h : sup = a <;> simp [h]
  · rfl

theorem lookupName_pushStep_map {α : Type} (getSups : α → List String)
    (pushChild : String → α → α)
    (hGS : ∀ loc x, getSups (pushChild loc x) = getSups x)
    (loc : String) (acc : List (String × α)) (sup a : String) :
    (lookupName (pushStep pushChild loc acc sup) a).map getSups =
      (lookupName acc a).map getSups := by
  unfold pushStep
  split
  · rw [lookupName_updateEntry]
    by_cases h : sup = a
    · rw [if_pos h]
      cases lookupName acc a with
      | none => rfl
      | some x => simp [hGS]
    · rw [if_neg h]
  · rfl

theorem childrenOfM_pushStep {α : Type} (getChildren : α → List String)
    (pushChild : String → α → α)
    (hGC : ∀ loc x, getChildren (pushChild loc x) = getChildren x ++ [loc])
    (loc : String) (acc : List (String × α)) (sup B A : String) :
    A ∈ childrenOfM getChildren (pushStep pushChild loc acc sup) B ↔
      A ∈ childrenOfM getChildren acc B ∨
        (B = sup ∧ (lookupName acc sup).isSome ∧ A = loc) := by
  unfold pushStep
  split
  · rename_i hsome
    unfold childrenOfM
    rw [lookupName_updateEntry]
    by_cases h : sup = B
    · subst h
      cases hlb : lookupName acc sup with
      | none =>
          rw [hlb] at hsome
          simp at hsome
      | some x =>
          rw [if_pos rfl]
          simp [hlb, hGC]
    · rw [if_neg h]
      constructor
      · exact Or.inl
      · rintro (h1 | ⟨hB, _, _⟩)
        · exact h1
        · exact absurd hB.symm h
  · rename_i hnone
    unfold childrenOfM
    constructor
    · exact Or.inl
    · rintro (h1 | ⟨_, h2, _⟩)
      · exact h1
      · exact absurd h2 hnone

theorem innerFold_isSome {α : Type} (pushChild : String → α → α)
    (loc : String) :
    ∀ (sups : List String) (acc : List (String × α)) (a : String),
      (lookupName (sups.foldl (pushStep pushChild loc) acc) a).isSome =
        (lookupName acc a).isSome := by
  intro sups
  induction sups with
  | nil => intro acc a; rfl
  | cons s1 t ih =>
      intro acc a
      rw [List.foldl_cons, ih, lookupName_pushStep_isSome]

theorem innerFold_map {α : Type} (getSups : α → List String)
    (pushChild : String → α → α)
    (hGS : ∀ loc x, getSups (pushChild loc x) = getSups x) (loc : String) :
    ∀ (sups : List String) (acc : List (String × α)) (a : String),
      (lookupName (sups.foldl (pushStep pushChild loc) acc) a).map getSups =
        (lookupName acc a).map getSups := by
  intro sups
  induction sups with
  | nil => intro acc a; rfl
  | cons s1 t ih =>
      intro acc a
      rw [List.foldl_cons, ih, lookupName_pushStep_map _ _ hGS]

theorem innerFold_children {α : Type} (getChildren : α → List String)
    (pushChild : String → α → α)
    (hGC : ∀ loc x, getChildren (pushChild loc x) = getChildren x ++ [loc])
    (loc : String) :
    ∀ (sups : List String) (acc : List (String × α)) (B A : String),
      A ∈ childrenOfM getChildren (sups.foldl (pushStep pushChild loc) acc) B ↔
        A ∈ childrenOfM getChildren acc B ∨
          (B ∈ sups ∧ (lookupName acc B).isSome ∧ A = loc) := by
  intro sups
  induction sups with
  | nil => intro acc B A; simp
  | cons s1 t ih =>
      intro acc B A
      rw [List.foldl_cons, ih, childrenOfM_pushStep _ _ hGC,
        lookupName_pushStep_isSome]
      constructor
      · rintro ((h1 | ⟨hB, hs, hA⟩) | ⟨hBt, hsB, hA⟩)
        · exact Or.inl h1
        · refine Or.inr ⟨List.mem_cons.mpr (Or.inl hB), ?_, hA⟩
          rw [hB]
          exact hs
        · exact Or.inr ⟨List.mem_cons.mpr (Or.inr hBt), hsB, hA⟩
      · rintro (h1 | ⟨hBst, hsB, hA⟩)
        · exact Or.inl (Or.inl h1)
        · rcases List.mem_cons.mp hBst with hB | hBt
          · refine Or.inl (Or.inr ⟨hB, ?_, hA⟩)
            rw [← hB]
            exact hsB
          · exact Or.inr ⟨hBt, hsB, hA⟩

theorem outerFold_isSome {α : Type} (getSups : α → List String)
    (pushChild : String → α → α) :
    ∀ (l : List (String × α)) (acc : List (String × α)) (a : String),
      (lookupName
        (l.foldl (fun acc p => (getSups p.2).foldl (pushStep pushChild p.1) acc)
          acc) a).isSome = (lookupName acc a).isSome := by
  intro l
  induction l with
  | nil => intro acc a; rfl
  | cons q t ih =>
      intro acc a
      rw [List.foldl_cons, ih, innerFold_isSome]

theorem outerFold_map {α : Type} (getSups : α → List String)
    (pushChild : String → α → α)
    (hGS : ∀ loc x, getSups (pushChild loc x) = getSups x) :
    ∀ (l : List (String × α)) (acc : List (String × α)) (a : String),
      (lookupName
        (l.foldl (fun acc p => (getSups p.2).foldl (pushStep pushChild p.1) acc)
          acc) a).map getSups = (lookupName acc a).map getSups := by
  intro l
  induction l with
  | nil => intro acc a; rfl
  | cons q t ih =>
      intro acc a
      rw [List.foldl_cons, ih, innerFold_map _ _ hGS]

theorem outerFold_children {α : Type} (getSups getChildren : α → List String)
    (pushChild : String → α → α)
    (hGC : ∀ loc x, getChildren (pushChild loc x) = getChildren x ++ [loc]) :
    ∀ (l : List (String × α)) (acc : List (String × α)) (B A : String),
      A ∈ childrenOfM getChildren
        (l.foldl (fun acc p => (getSups p.2).foldl (pushStep pushChild p.1) acc)
          acc) B ↔
        A ∈ childrenOfM getChildren acc B ∨
          ∃ p ∈ l, p.1 = A ∧ B ∈ getSups p.2 ∧ (lookupName acc B).isSome := by
  intro l
  induction l with
  | nil => intro acc B A; simp
  | cons q t ih =>
      intro acc B A
      rw [List.foldl_cons, ih]
      constructor
      · rintro (h1 | ⟨p, hp, hA, hB, hs⟩)
        · rw [innerFold_children _ _ hGC] at h1
          rcases h1 with h2 | ⟨hB, hs, hA⟩
          · exact Or.inl h2
          · exact Or.inr ⟨q, List.mem_cons_self _ _, hA.symm ▸ rfl, hB, hs⟩
        · rw [innerFold_isSome] at hs
          exact Or.inr ⟨p, List.mem_cons_of_mem _ hp, hA, hB, hs⟩
      · rintro (h1 | ⟨p, hp, hA, hB, hs⟩)
        · refine Or.inl ?_
          rw [innerFold_children _ _ hGC]
          exact Or.inl h1
        · rcases List.mem_cons.mp hp with hq | hpt
          · refine Or.inl ?_
            rw [innerFold_children _ _ hGC]
            subst hq
            exact Or.inr ⟨hB, hs, hA.symm⟩
          · refine Or.inr ⟨p, hpt, hA, hB, ?_⟩
            rw [innerFold_isSome]
            exact hs

theorem build_subclass_eq_fold (classes : List (String × ClassInfo)) :
    build_subclass_relationships classes =
      classes.foldl (fun acc p =>
        (p.2.superclasses).foldl
          (pushStep (fun loc ci => { ci with subclasses := ci.subclasses ++ [loc] })
            p.1) acc) classes := rfl

theorem build_subproperty_eq_fold (props : List (String × PropertyInfo)) :
    build_subproperty_relationships props =
      props.foldl (fun acc p =>
        (p.2.superproperties).foldl
          (pushStep
            (fun loc pi => { pi with subproperties := pi.subproperties ++ [loc] })
            p.1) acc) props := rfl

theorem build_subclass_isSome (classes : List (String × ClassInfo))
    (a : String) :
    (lookupName (build_subclass_relationships classes) a).isSome =
      (lookupName classes a).isSome := by
  rw [build_subclass_eq_fold]
  exact outerFold_isSome _ _ classes classes a

theorem build_subclass_superclasses (classes : List (String × ClassInfo))
    (a : String) :
    (lookupName (build_subclass_relationships classes) a).map
        (fun ci => ci.superclasses) =
      (lookupName classes a).map (fun ci => ci.superclasses) := by
  rw [build_subclass_eq_fold]
  exact outerFold_map (fun ci => ci.superclasses)
    (fun loc ci => { ci with subclasses := ci.subclasses ++ [loc] })
    (fun loc x => rfl) classes classes a

theorem build_subclass_children (classes : List (String × ClassInfo))
    (A B : String) :
    A ∈ childrenOfM (fun ci => ci.subclasses)
        (build_subclass_relationships classes) B ↔
      A ∈ childrenOfM (fun ci => ci.subclasses) classes B ∨
        ∃ p ∈ classes, p.1 = A ∧ B ∈ p.2.superclasses ∧
          (lookupName classes B).isSome := by
  rw [build_subclass_eq_fold]
  exact outerFold_children _ _ _ (fun loc x => rfl) classes classes B A

theorem build_subproperty_isSome (props : List (String × PropertyInfo))
    (a : String) :
    (lookupName (build_subproperty_relationships props) a).isSome =
      (lookupName props a).isSome := by
  rw [build_subproperty_eq_fold]
  exact outerFold_isSome _ _ props props a

theorem build_subproperty_superproperties (props : List (String × PropertyInfo))
    (a : String) :
    (lookupName (build_subproperty_relationships props) a).map
        (fun pi => pi.superproperties) =
      (lookupName props a).map (fun pi => pi.superproperties) := by
  rw [build_subproperty_eq_fold]
  exact outerFold_map (fun pi => pi.superproperties)
    (fun loc pi => { pi with subproperties := pi.subproperties ++ [loc] })
    (fun loc x => rfl) props props a

theorem build_subproperty_children (props : List (String × PropertyInfo))
    (A B : String) :
    A ∈ childrenOfM (fun pi => pi.subproperties)
        (build_subproperty_relationships props) B ↔
      A ∈ childrenOfM (fun pi => pi.subproperties) props B ∨
        ∃ p ∈ props, p.1 = A ∧ B ∈ p.2.superproperties ∧
          (lookupName props B).isSome := by
  rw [build_subproperty_eq_fold]
  exact outerFold_children _ _ _ (fun loc x => rfl) props props B A

theorem childrenOfM_of_empty {α : Type} (getChildren : α → List String)
    (m : List (String × α)) (hemp : ∀ p ∈ m, getChildren p.2 = [])
    (B : String) : childrenOfM getChildren m B = [] := by
  unfold childrenOfM
  cases hlb : lookupName m B with
  | none => rfl
  | some v => simpa using hemp (B, v) (lookupName_mem hlb)

theorem lookupName_of_mem_nodup {α : Type} :
    ∀ {m : List (String × α)}, (m.map Prod.fst).Nodup →
      ∀ {k : String} {v : α}, (k, v) ∈ m → lookupName m k = some v := by
  intro m
  induction m with
  | nil =>
      intro _ k v h
      simp at h
  | cons p t ih =>
      intro hnd k v h
      rw [List.map_cons, List.nodup_cons] at hnd
      rw [lookupName_cons]
      rcases List.mem_cons.mp h with h1 | h1
      · rw [← h1]
        simp
      · by_cases hpk : p.1 = k
        · exfalso
          apply hnd.1
          rw [hpk]
          exact List.mem_map.mpr ⟨(k, v), h1, rfl⟩
        · rw [if_neg hpk]
          exact ih hnd.2 h1

theorem childrenOfM_lookup {α : Type} (getChildren : α → List String)
    {m : List (String × α)} {k : String} {v : α}
    (h : lookupName m k = some v) :
    childrenOfM getChildren m k = getChildren v := by
  unfold childrenOfM
  rw [h]
  rfl

theorem build_subclass_lookup_raw (rawC : List (String × ClassInfo))
    {A : String} {infoA : ClassInfo}
    (hA : lookupName (build_subclass_relationships rawC) A = some infoA) :
    ∃ rawA, lookupName rawC A = some rawA ∧
      rawA.superclasses = infoA.superclasses := by
  have h1 := build_subclass_superclasses rawC A
  rw [hA] at h1
  cases hra : lookupName rawC A with
  | none =>
      rw [hra] at h1
      simp at h1
  | some rawA =>
      rw [hra] at h1
      refine ⟨rawA, rfl, ?_⟩
      simpa using h1.symm

theorem build_subproperty_lookup_raw (rawP : List (String × PropertyInfo))
    {A : String} {infoA : PropertyInfo}
    (hA : lookupName (build_subproperty_relationships rawP) A = some infoA) :
    ∃ rawA, lookupName rawP A = some rawA ∧
      rawA.superproperties = infoA.superproperties := by
  have h1 := build_subproperty_superproperties rawP A
  rw [hA] at h1
  cases hra : lookupName rawP A with
  | none =>
      rw [hra] at h1
      simp at h1
  | some rawA =>
      rw [hra] at h1
      refine ⟨rawA, rfl, ?_⟩
      simpa using h1.symm

/-- C9: after the model is built, hierarchy edges are mutual: for every two
entries present in the built class registry, `B` is in `A`'s superclass list
iff `A` is in `B`'s subclass list; and likewise for superproperty /
subproperty lists in the built property registry.  The raw registries carry
the invariants `_extract_classes` / `_extract_properties` establish before
the inverse pass: unique keys (a Python dict) and empty child lists. -/
theorem claim_C9_edges_mutual
    (rawC : List (String × ClassInfo)) (rawP : List (String × PropertyInfo))
    (hndC : (rawC.map Prod.fst).Nodup)
    (hemC : ∀ p ∈ rawC, p.2.subclasses = [])
    (hndP : (rawP.map Prod.fst).Nodup)
    (hemP : ∀ p ∈ rawP, p.2.subproperties = []) :
    (∀ A B infoA infoB,
      lookupName (build_subclass_relationships rawC) A = some infoA →
      lookupName (build_subclass_relationships rawC) B = some infoB →
      (B ∈ infoA.superclasses ↔ A ∈ infoB.subclasses)) ∧
    (∀ A B infoA infoB,
      lookupName (build_subproperty_relationships rawP) A = some infoA →
      lookupName (build_subproperty_relationships rawP) B = some infoB →
      (B ∈ infoA.superproperties ↔ A ∈ infoB.subproperties)) := by
  constructor
  · intro A B infoA infoB hA hB
    obtain ⟨rawA, hrA, hsupA⟩ := build_subclass_lookup_raw rawC hA
    have hchild : A ∈ infoB.subclasses ↔
        A ∈ childrenOfM (fun ci => ci.subclasses)
          (build_subclass_relationships rawC) B := by
      rw [childrenOfM_lookup _ hB]
    rw [hchild, build_subclass_children,
      childrenOfM_of_empty (fun ci => ci.subclasses) rawC hemC]
    simp only [List.not_mem_nil, false_or]
    constructor
    · intro hBs
      refine ⟨(A, rawA), lookupName_mem hrA, rfl, ?_, ?_⟩
      · rw [hsupA]
        exact hBs
      · rw [← build_subclass_isSome, hB]
        rfl
    · rintro ⟨p, hp, hpA, hBp, _⟩
      have h2 : lookupName rawC A = some p.2 := by
        rw [← hpA]
        exact lookupName_of_mem_nodup hndC (by simpa using hp)
      rw [hrA] at h2
      injection h2 with h3
      rw [← hsupA, h3]
      exact hBp
  · intro A B infoA infoB hA hB
    obtain ⟨rawA, hrA, hsupA⟩ := build_subproperty_lookup_raw rawP hA
    have hchild : A ∈ infoB.subproperties ↔
        A ∈ childrenOfM (fun pi => pi.subproperties)
          (build_subproperty_relationships rawP) B := by
      rw [childrenOfM_lookup _ hB]
    rw [hchild, build_subproperty_children,
      childrenOfM_of_empty (fun pi => pi.subproperties) rawP hemP]
    simp only [List.not_mem_nil, false_or]
    constructor
    · intro hBs
      refine ⟨(A, rawA), lookupName_mem hrA, rfl, ?_, ?_⟩
      · rw [hsupA]
        exact hBs
      · rw [← build_subproperty_isSome, hB]
        rfl
    · rintro ⟨p, hp, hpA, hBp, _⟩
      have h2 : lookupName rawP A = some p.2 := by
        rw [← hpA]
        exact lookupName_of_mem_nodup hndP (by simpa using hp)
      rw [hrA] at h2
      injection h2 with h3
      rw [← hsupA, h3]
      exact hBp

theorem claim_C9_witness :
    ∃ infoE infoPE : ClassInfo,
      lookupName (build_subclass_relationships exRawClasses) "Event" =
        some infoE ∧
      lookupName (build_subclass_relationships exRawClasses) "PhysicalEvent" =
        some infoPE ∧
      ("PhysicalEvent" ∈ infoE.superclasses ↔ "Event" ∈ infoPE.subclasses) := by
  have h := (claim_C9_edges_mutual exRawClasses exRawProps (by decide)
    (by decide) (by decide) (by decide)).1
  cases hE : lookupName (build_subclass_relationships exRawClasses) "Event" with
  | none => exact absurd hE (by decide)
  | some infoE =>
      cases hP : lookupName (build_subclass_relationships exRawClasses)
          "PhysicalEvent" with
      | none => exact absurd hP (by decide)
      | some infoPE =>
          exact ⟨infoE, infoPE, rfl, rfl,
            h "Event" "PhysicalEvent" infoE infoPE hE hP⟩

theorem subclassEdge_transpose (rawC : List (String × ClassInfo))
    (props : List (String × PropertyInfo))
    (hndC : (rawC.map Prod.fst).Nodup)
    (hemC : ∀ p ∈ rawC, p.2.subclasses = []) {X Y : String}
    (h : subclassEdge ⟨build_subclass_relationships rawC, props⟩ X Y) :
    ∃ infoY, lookupName (build_subclass_relationships rawC) Y = some infoY ∧
      X ∈ infoY.superclasses ∧
      (lookupName (build_subclass_relationships rawC) X).isSome := by
  obtain ⟨infoX, hX, hYsub⟩ := h
  have hY : Y ∈ childrenOfM (fun ci => ci.subclasses)
      (build_subclass_relationships rawC) X := by
    rw [childrenOfM_lookup _ hX]
    exact hYsub
  rw [build_subclass_children,
    childrenOfM_of_empty (fun ci => ci.subclasses) rawC hemC] at hY
  simp only [List.not_mem_nil, false_or] at hY
  obtain ⟨p, hp, hpY, hXsup, hXk⟩ := hY
  have hrY : lookupName rawC Y = some p.2 := by
    rw [← hpY]
    exact lookupName_of_mem_nodup hndC (by simpa using hp)
  have hbY : (lookupName (build_subclass_relationships rawC) Y).isSome := by
    rw [build_subclass_isSome, hrY]
    rfl
  obtain ⟨infoY, hY2⟩ := Option.isSome_iff_exists.mp hbY
  obtain ⟨rawY, hrY2, hsup⟩ := build_subclass_lookup_raw rawC hY2
  rw [hrY] at hrY2
  injection hrY2 with h3
  refine ⟨infoY, hY2, ?_, ?_⟩
  · rw [← hsup, ← h3]
    exact hXsup
  · rw [hX]
    rfl

theorem closureAux_minimal (table : List (String × List String)) :
    ∀ (fuel : Nat) (ws : List String) (acc r : Finset String),
      closureAux table fuel ws acc = some r →
      ∀ T : Finset String, acc ⊆ T →
      (∀ x ∈ ws, (lookupName table x).isSome → x ∈ T) →
      (∀ y ∈ T, ∀ sups, lookupName table y = some sups →
        ∀ z ∈ sups, (lookupName table z).isSome → z ∈ T) →
      r ⊆ T := by
  intro fuel
  induction fuel with
  | zero =>
      intro ws acc r h T hacc _ _
      simp only [closureAux] at h
      split at h
      · injection h with h2
        subst h2
        exact hacc
      · exact absurd h (by simp)
  | succ n ih =>
      intro ws acc r h T hacc hws hclosed
      simp only [closureAux] at h
      split at h
      · injection h with h2
        subst h2
        exact hacc
      · rename_i current hcur
        have hdec := getLast?_decomp hcur
        split at h
        · refine ih _ _ _ h T hacc (fun x hx hxk => ?_) hclosed
          exact hws x (by rw [hdec]; exact List.mem_append_left _ hx) hxk
        · split at h
          · refine ih _ _ _ h T hacc (fun x hx hxk => ?_) hclosed
            exact hws x (by rw [hdec]; exact List.mem_append_left _ hx) hxk
          · rename_i hmem _ sups hlk
            have hcT : current ∈ T := by
              refine hws current ?_ ?_
              · rw [hdec]
                exact List.mem_append_right _ (List.mem_cons_self _ _)
              · rw [hlk]
                rfl
            refine ih _ _ _ h T (Finset.insert_subset hcT hacc)
              (fun x hx hxk => ?_) hclosed
            rcases List.mem_append.mp hx with h1 | h1
            · exact hws x (by rw [hdec]; exact List.mem_append_left _ h1) hxk
            · exact hclosed current hcT sups hlk x h1 hxk

theorem get_ancestors_trans (s : GistSchema) {b D : String}
    (hb : b ∈ get_ancestors s D) :
    get_ancestors s b ⊆ get_ancestors s D := by
  have hkey := get_ancestors_keys s D b hb
  obtain ⟨infoB, hB⟩ := Option.isSome_iff_exists.mp hkey
  have hrun := get_ancestors_run s hB
  refine closureAux_minimal (classTable s) _ _ _ _ hrun (get_ancestors s D)
    (Finset.empty_subset _) ?_ ?_
  · intro x hx hxk
    obtain ⟨infoB2, hB2, hcl⟩ := get_ancestors_spec s D b hb
    rw [hB] at hB2
    injection hB2 with h3
    refine hcl x (h3 ▸ hx) ?_
    rw [lookupName_classTable] at hxk
    simpa using hxk
  · intro y hy sups hlk z hz hzk
    obtain ⟨infoY, hYl, hclY⟩ := get_ancestors_spec s D y hy
    rw [lookupName_classTable, hYl] at hlk
    have hsups : infoY.superclasses = sups := by
      simpa using hlk
    refine hclY z (hsups ▸ hz) ?_
    rw [lookupName_classTable] at hzk
    simpa using hzk

/-- C2: in a model built by the subclass pass from a raw registry with
unique keys and empty subclass lists, whenever `D` is reachable from `C`
through a nonempty chain of the model's subclass edges, `C` belongs to
`get_ancestors` of `D`. -/
theorem claim_C2_ancestors_transitive
    (rawC : List (String × ClassInfo)) (props : List (String × PropertyInfo))
    (hndC : (rawC.map Prod.fst).Nodup)
    (hemC : ∀ p ∈ rawC, p.2.subclasses = []) (C D : String)
    (h : Relation.TransGen
      (subclassEdge ⟨build_subclass_relationships rawC, props⟩) C D) :
    C ∈ get_ancestors ⟨build_subclass_relationships rawC, props⟩ D := by
  induction h with
  | single hedge =>
      obtain ⟨infoD, hD, hCs, hCk⟩ :=
        subclassEdge_transpose rawC props hndC hemC hedge
      exact mem_get_ancestors_of_superclass _ hD hCs hCk
  | tail h1 hedge ih =>
      obtain ⟨infoD, hD, hbs, hbk⟩ :=
        subclassEdge_transpose rawC props hndC hemC hedge
      have hbD := mem_get_ancestors_of_superclass
        (⟨build_subclass_relationships rawC, props⟩ : GistSchema) hD hbs hbk
      exact get_ancestors_trans _ hbD ih

theorem claim_C2_witness :
    "Thing" ∈ get_ancestors exSchema "Event" := by
  have e1 : subclassEdge exSchema "Thing" "PhysicalEvent" :=
    ⟨{ uri := "https://w3id.org/semanticarts/gist/Thing",
       local_name := "Thing", label := none, definition := none,
       superclasses := [], subclasses := ["PhysicalEvent"],
       is_defined_class := false }, by decide, by decide⟩
  have e2 : subclassEdge exSchema "PhysicalEvent" "Event" :=
    ⟨{ uri := "https://w3id.org/semanticarts/gist/PhysicalEvent",
       local_name := "PhysicalEvent", label := none, definition := none,
       superclasses := ["Thing"], subclasses := ["Event"],
       is_defined_class := false }, by decide, by decide⟩
  exact claim_C2_ancestors_transitive exRawClasses
    (build_subproperty_relationships exRawProps) (by decide) (by decide)
    "Thing" "Event" (Relation.TransGen.tail (Relation.TransGen.single e1) e2)

/-! ### Termination of the traversals (C8) and descendant bounds (C3) -/

theorem descIter_eq_iterate (s : GistSchema) :
    ∀ (k : Nat) (st : Finset String × Finset String),
      descIter s k st = (descStep s)^[k] st := by
  intro k
  induction k with
  | zero => intro st; rfl
  | succ n ih =>
      intro st
      simp only [descIter]
      rw [Function.iterate_succ_apply]
      exact ih (descStep s st)

/-- C8: every closure traversal terminates on every model, including models
whose hierarchy edges form cycles.  The worklist loop finishes (returns
`some`) within its computed fuel on every parent table (so in particular
for the `get_ancestors` and `get_property_ancestors` instances, whose
results are exactly the completed runs), and the descendant traversal runs
exactly its `max_depth` bounded iterations of `descStep`. -/
theorem claim_C8_traversals_terminate :
    (∀ (table : List (String × List String)) (init : List String),
      (closureRun table init).isSome = true) ∧
    (∀ (s : GistSchema) (name : String) (info : ClassInfo),
      lookupName s.classes name = some info →
      closureRun (classTable s) info.superclasses =
        some (get_ancestors s name)) ∧
    (∀ (s : GistSchema) (name : String) (info : PropertyInfo),
      lookupName s.properties name = some info →
      closureRun (propTable s) info.superproperties =
        some (get_property_ancestors s name)) ∧
    (∀ (s : GistSchema) (k : Nat) (st : Finset String × Finset String),
      descIter s k st = (descStep s)^[k] st) :=
  ⟨closureRun_isSome,
   fun s _ _ h => get_ancestors_run s h,
   fun s _ _ h => get_property_ancestors_run s h,
   descIter_eq_iterate⟩

theorem claim_C8_witness :
    closureRun (classTable wSchema) ["TimeInterval"] =
      some (get_ancestors wSchema "Event") :=
  claim_C8_traversals_terminate.2.1 wSchema "Event"
    { uri := "https://w3id.org/semanticarts/gist/Event",
      local_name := "Event", label := none, definition := none,
      superclasses := ["TimeInterval"], subclasses := [],
      is_defined_class := false } (by decide)

theorem descStep_fst_subset (s : GistSchema)
    (st : Finset String × Finset String) : st.1 ⊆ (descStep s st).1 := by
  unfold descStep
  exact Finset.subset_union_left

theorem descIter_fst_mono (s : GistSchema) :
    ∀ (k : Nat) (st : Finset String × Finset String),
      (descIter s k st).1 ⊆ (descIter s (k + 1) st).1 := by
  intro k st
  rw [descIter_eq_iterate, descIter_eq_iterate,
    Function.iterate_succ_apply']
  exact descStep_fst_subset s _

theorem descStep_inv (s : GistSchema) (C : String) (j : Nat)
    (st : Finset String × Finset String) (h : DescInv s C j st) :
    DescInv s C (j + 1) (descStep s st) := by
  obtain ⟨h1, h2⟩ := h
  constructor
  · intro y hy
    unfold descStep at hy
    simp only [Finset.mem_union] at hy
    rcases hy with hy | hy
    · obtain ⟨n, hn, hc⟩ := h1 y hy
      exact ⟨n, by omega, hc⟩
    · have := Finset.mem_of_mem_filter y hy
      exact ⟨j + 1, by omega, h2 y this⟩
  · intro y hy
    unfold descStep at hy
    simp only [Finset.mem_biUnion, Finset.mem_filter] at hy
    obtain ⟨c, ⟨hc2, _, hcsome⟩, hysub⟩ := hy
    obtain ⟨infoC, hinfoC⟩ := Option.isSome_iff_exists.mp hcsome
    have hsub : y ∈ infoC.subclasses := by
      rw [List.mem_toFinset] at hysub
      unfold subclassesOf at hysub
      rw [hinfoC] at hysub
      exact hysub
    exact DownChainN.step (h2 c hc2) hinfoC hsub

theorem descInv_iter (s : GistSchema) (C : String) :
    ∀ (k j : Nat) (st : Finset String × Finset String),
      DescInv s C j st → DescInv s C (j + k) (descIter s k st) := by
  intro k
  induction k with
  | zero =>
      intro j st h
      simpa using h
  | succ n ih =>
      intro j st h
      simp only [descIter]
      have h2 := ih (j + 1) (descStep s st) (descStep_inv s C j st h)
      have : j + 1 + n = j + (n + 1) := by omega
      rwa [this] at h2

/-- C3 (counterexample to the claim as stated): `wSchema`'s class `Event`
has no subclasses, so its descendant set is empty at every depth and
`Descendants(Event, 2)` is not a strict subset of `Descendants(Event, 3)`. -/
theorem claim_C3_counterexample :
    get_descendants wSchema "Event" 2 = get_descendants wSchema "Event" 3 ∧
    ¬ (get_descendants wSchema "Event" 2 ⊂ get_descendants wSchema "Event" 3) := by
  constructor
  · decide
  · decide

/-- C3 (amended): `Descendants(C, maxDepth = k)` contains only classes
reachable from `C` by a downward chain of at most `k` subclass edges, and it
is a subset — not necessarily strict — of `Descendants(C, maxDepth = k+1)`. -/
theorem claim_C3_descendants_depth_bound (s : GistSchema) (C : String)
    (k : Nat) :
    (∀ y ∈ get_descendants s C k, ∃ n, n ≤ k ∧ DownChainN s C y n) ∧
    get_descendants s C k ⊆ get_descendants s C (k + 1) := by
  constructor
  · intro y hy
    cases hlk : lookupName s.classes C with
    | none => simp [get_descendants, hlk] at hy
    | some info =>
        have hinit : DescInv s C 0 (∅, info.subclasses.toFinset) := by
          constructor
          · intro y2 hy2
            simp at hy2
          · intro y2 hy2
            rw [List.mem_toFinset] at hy2
            exact DownChainN.single hlk hy2
        have hinv := descInv_iter s C k 0 _ hinit
        simp only [Nat.zero_add] at hinv
        refine hinv.1 y ?_
        simpa [get_descendants, hlk] using hy
  · cases hlk : lookupName s.classes C with
    | none => simp [get_descendants, hlk]
    | some info =>
        simp only [get_descendants, hlk]
        exact descIter_fst_mono s k _

theorem claim_C3_witness :
    (∃ n, n ≤ 1 ∧ DownChainN wSchema "TimeInterval" "Event" n) ∧
    get_descendants wSchema "TimeInterval" 1 ⊆
      get_descendants wSchema "TimeInterval" 2 :=
  ⟨(claim_C3_descendants_depth_bound wSchema "TimeInterval" 1).1 "Event"
      (by decide),
   (claim_C3_descendants_depth_bound wSchema "TimeInterval" 1).2⟩

/-! ### The relevance pass (C1) -/

theorem relevanceStep_mem (cs ps : Finset String) (p : String × PropertyInfo)
    (q : String) :
    (q ∈ (if p.2.is_object_property &&
            p.2.ranges.any (fun r => decide (r ∈ cs)) then
          insert p.1 (if p.2.domains.any (fun d => decide (d ∈ cs)) then
            insert p.1 ps else ps)
        else (if p.2.domains.any (fun d => decide (d ∈ cs)) then
          insert p.1 ps else ps))) ↔
      q ∈ ps ∨ (p.1 = q ∧
        ((∃ d ∈ p.2.domains, d ∈ cs) ∨
          (p.2.is_object_property = true ∧ ∃ r ∈ p.2.ranges, r ∈ cs))) := by
  have hA2 : (p.2.domains.any (fun d => decide (d ∈ cs))) = true ↔
      ∃ d ∈ p.2.domains, d ∈ cs := by
    simp [List.any_eq_true]
  have hB2 : (p.2.is_object_property &&
      p.2.ranges.any (fun r => decide (r ∈ cs))) = true ↔
      p.2.is_object_property = true ∧ ∃ r ∈ p.2.ranges, r ∈ cs := by
    simp [Bool.and_eq_true, List.any_eq_true]
  by_cases hA : (p.2.domains.any (fun d => decide (d ∈ cs))) = true
  · by_cases hB : (p.2.is_object_property &&
        p.2.ranges.any (fun r => decide (r ∈ cs))) = true
    · rw [if_pos hB, if_pos hA]
      simp only [Finset.mem_insert]
      constructor
      · rintro (h | h | h)
        · exact Or.inr ⟨h.symm, Or.inl (hA2.mp hA)⟩
        · exact Or.inr ⟨h.symm, Or.inl (hA2.mp hA)⟩
        · exact Or.inl h
      · rintro (h | ⟨h1, _⟩)
        · exact Or.inr (Or.inr h)
        · exact Or.inl h1.symm
    · rw [if_neg hB, if_pos hA]
      simp only [Finset.mem_insert]
      constructor
      · rintro (h | h)
        · exact Or.inr ⟨h.symm, Or.inl (hA2.mp hA)⟩
        · exact Or.inl h
      · rintro (h | ⟨h1, _⟩)
        · exact Or.inr h
        · exact Or.inl h1.symm
  · by_cases hB : (p.2.is_object_property &&
        p.2.ranges.any (fun r => decide (r ∈ cs))) = true
    · rw [if_pos hB, if_neg hA]
      simp only [Finset.mem_insert]
      constructor
      · rintro (h | h)
        · exact Or.inr ⟨h.symm, Or.inr (hB2.mp hB)⟩
        · exact Or.inl h
      · rintro (h | ⟨h1, _⟩)
        · exact Or.inr h
        · exact Or.inl h1.symm
    · rw [if_neg hB, if_neg hA]
      constructor
      · exact Or.inl
      · rintro (h | ⟨h1, h2 | h2⟩)
        · exact h
        · exact absurd (hA2.mpr h2) hA
        · exact absurd (hB2.mpr h2) hB

theorem relevancePass_mem (s : GistSchema) (cs ps : Finset String)
    (q : String) :
    q ∈ relevancePass s cs ps ↔ q ∈ ps ∨
      ∃ p ∈ s.properties, p.1 = q ∧
        ((∃ d ∈ p.2.domains, d ∈ cs) ∨
          (p.2.is_object_property = true ∧ ∃ r ∈ p.2.ranges, r ∈ cs)) := by
  unfold relevancePass
  generalize s.properties = l
  induction l generalizing ps with
  | nil => simp
  | cons p t ih =>
      rw [List.foldl_cons, ih]
      have hstep := relevanceStep_mem cs ps p q
      constructor
      · rintro (h | ⟨p2, hp2, hrest⟩)
        · rcases hstep.mp h with h1 | h1
          · exact Or.inl h1
          · exact Or.inr ⟨p, List.mem_cons_self _ _, h1⟩
        · exact Or.inr ⟨p2, List.mem_cons_of_mem _ hp2, hrest⟩
      · rintro (h | ⟨p2, hp2, hrest⟩)
        · exact Or.inl (hstep.mpr (Or.inl h))
        · rcases List.mem_cons.mp hp2 with h1 | h1
          · subst h1
            exact Or.inl (hstep.mpr (Or.inr hrest))
          · exact Or.inr ⟨p2, h1, hrest⟩

/-- C1: the relevance pass (run by both `subset_by_topics` and
`subset_by_classes` as `relevancePass`) adds a property of the model to the
selected set — beyond the properties already selected — exactly when some
entry of the property registry carries that name and either one of its
domain classes lies in the expanded class set, or it is an object property
and one of its range classes lies in the expanded class set.  In
particular, a datatype property is never selected through its ranges. -/
theorem claim_C1_relevance_pass (s : GistSchema) (cs ps : Finset String)
    (q : String) (hq : q ∉ ps) :
    q ∈ relevancePass s cs ps ↔
      ∃ p ∈ s.properties, p.1 = q ∧
        ((∃ d ∈ p.2.domains, d ∈ cs) ∨
          (p.2.is_object_property = true ∧ ∃ r ∈ p.2.ranges, r ∈ cs)) := by
  rw [relevancePass_mem]
  simp [hq]

theorem claim_C1_witness :
    "eventDate" ∈ relevancePass wSchema {"Event"} ∅ ∧
    "unrelatedDate" ∉ relevancePass wSchema {"Event"} ∅ := by
  constructor
  · refine (claim_C1_relevance_pass wSchema {"Event"} ∅ "eventDate"
      (by decide)).mpr ?_
    refine ⟨("eventDate",
      { uri := "https://w3id.org/semanticarts/gist/eventDate",
        local_name := "eventDate", label := none, definition := none,
        domains := ["Event"], ranges := ["xsd:date"],
        is_object_property := false, superproperties := [],
        subproperties := [] }), by decide, rfl, ?_⟩
    exact Or.inl ⟨"Event", by decide, by decide⟩
  · decide

/-! ### Membership in the subset entry points (C5, C6, C10) -/

theorem insertIfFold_mem (ok : String → Bool) :
    ∀ (l : List String) (a : Finset String) (x : String),
      x ∈ l.foldl (fun a c => if ok c then insert c a else a) a ↔
        x ∈ a ∨ (x ∈ l ∧ ok x = true) := by
  intro l
  induction l with
  | nil =>
      intro a x
      simp
  | cons c t ih =>
      intro a x
      rw [List.foldl_cons, ih]
      have hstep : x ∈ (if ok c then insert c a else a) ↔
          x ∈ a ∨ (x = c ∧ ok x = true) := by
        by_cases h : ok c = true
        · rw [if_pos h]
          simp only [Finset.mem_insert]
          constructor
          · rintro (h1 | h1)
            · exact Or.inr ⟨h1, h1 ▸ h⟩
            · exact Or.inl h1
          · rintro (h1 | ⟨h1, _⟩)
            · exact Or.inr h1
            · exact Or.inl h1
        · rw [if_neg h]
          constructor
          · exact Or.inl
          · rintro (h1 | ⟨h1, h2⟩)
            · exact h1
            · exact absurd (h1 ▸ h2) h
      rw [hstep]
      constructor
      · rintro ((h1 | ⟨h1, h2⟩) | ⟨h1, h2⟩)
        · exact Or.inl h1
        · exact Or.inr ⟨List.mem_cons.mpr (Or.inl h1), h2⟩
        · exact Or.inr ⟨List.mem_cons.mpr (Or.inr h1), h2⟩
      · rintro (h1 | ⟨h1, h2⟩)
        · exact Or.inl (Or.inl h1)
        · rcases List.mem_cons.mp h1 with h3 | h3
          · exact Or.inl (Or.inr ⟨h3, h2⟩)
          · exact Or.inr ⟨h3, h2⟩

theorem topicsFold_mem_fst (seedT propT : List (String × List String))
    (s : GistSchema) :
    ∀ (topics : List String) (acc : Finset String × Finset String)
      (x : String),
      x ∈ (topics.foldl (fun acc topic =>
        (match lookupName seedT topic with
          | some seeds => seeds.foldl (fun a cls =>
              if (lookupName s.classes cls).isSome then insert cls a else a)
              acc.1
          | none => acc.1,
         match lookupName propT topic with
          | some ps2 => ps2.foldl (fun a prop =>
              if (lookupName s.properties prop).isSome then insert prop a
              else a) acc.2
          | none => acc.2)) acc).1 ↔
        x ∈ acc.1 ∨ TopicSeeded seedT s topics x := by
  intro topics
  induction topics with
  | nil =>
      intro acc x
      simp [TopicSeeded]
  | cons T t ih =>
      intro acc x
      rw [List.foldl_cons, ih]
      have hstep : x ∈ (match lookupName seedT T with
          | some seeds => seeds.foldl (fun a cls =>
              if (lookupName s.classes cls).isSome then insert cls a else a)
              acc.1
          | none => acc.1) ↔
          x ∈ acc.1 ∨ (∃ seeds, lookupName seedT T = some seeds ∧ x ∈ seeds ∧
            (lookupName s.classes x).isSome) := by
        cases hT : lookupName seedT T with
        | none =>
            constructor
            · exact Or.inl
            · rintro (h1 | ⟨seeds, hs, _⟩)
              · exact h1
              · simp [hT] at hs
        | some seeds =>
            rw [insertIfFold_mem (fun cls => (lookupName s.classes cls).isSome)]
            constructor
            · rintro (h1 | ⟨h1, h2⟩)
              · exact Or.inl h1
              · exact Or.inr ⟨seeds, rfl, h1, h2⟩
            · rintro (h1 | ⟨seeds2, hs2, h3, h4⟩)
              · exact Or.inl h1
              · injection hs2 with h5
                exact Or.inr ⟨h5 ▸ h3, h4⟩
      rw [hstep]
      unfold TopicSeeded
      constructor
      · rintro ((h1 | ⟨seeds, h2, h3, h4⟩) | ⟨t2, ht2, seeds, h2, h3, h4⟩)
        · exact Or.inl h1
        · exact Or.inr ⟨T, List.mem_cons_self _ _, seeds, h2, h3, h4⟩
        · exact Or.inr ⟨t2, List.mem_cons_of_mem _ ht2, seeds, h2, h3, h4⟩
      · rintro (h1 | ⟨t2, ht2, seeds, h2, h3, h4⟩)
        · exact Or.inl (Or.inl h1)
        · rcases List.mem_cons.mp ht2 with h5 | h5
          · exact Or.inl (Or.inr ⟨seeds, h5 ▸ h2, h3, h4⟩)
          · exact Or.inr ⟨t2, h5, seeds, h2, h3, h4⟩

theorem topicsFold_mem_snd (seedT propT : List (String × List String))
    (s : GistSchema) :
    ∀ (topics : List String) (acc : Finset String × Finset String)
      (x : String),
      x ∈ (topics.foldl (fun acc topic =>
        (match lookupName seedT topic with
          | some seeds => seeds.foldl (fun a cls =>
              if (lookupName s.classes cls).isSome then insert cls a else a)
              acc.1
          | none => acc.1,
         match lookupName propT topic with
          | some ps2 => ps2.foldl (fun a prop =>
              if (lookupName s.properties prop).isSome then insert prop a
              else a) acc.2
          | none => acc.2)) acc).2 ↔
        x ∈ acc.2 ∨ TopicPropSeeded propT s topics x := by
  intro topics
  induction topics with
  | nil =>
      intro acc x
      simp [TopicPropSeeded]
  | cons T t ih =>
      intro acc x
      rw [List.foldl_cons, ih]
      have hstep : x ∈ (match lookupName propT T with
          | some ps2 => ps2.foldl (fun a prop =>
              if (lookupName s.properties prop).isSome then insert prop a
              else a) acc.2
          | none => acc.2) ↔
          x ∈ acc.2 ∨ (∃ ps2, lookupName propT T = some ps2 ∧ x ∈ ps2 ∧
            (lookupName s.properties x).isSome) := by
        cases hT : lookupName propT T with
        | none =>
            constructor
            · exact Or.inl
            · rintro (h1 | ⟨ps2, hs, _⟩)
              · exact h1
              · simp [hT] at hs
        | some ps2 =>
            rw [insertIfFold_mem
              (fun prop => (lookupName s.properties prop).isSome)]
            constructor
            · rintro (h1 | ⟨h1, h2⟩)
              · exact Or.inl h1
              · exact Or.inr ⟨ps2, rfl, h1, h2⟩
            · rintro (h1 | ⟨ps3, hs2, h3, h4⟩)
              · exact Or.inl h1
              · injection hs2 with h5
                exact Or.inr ⟨h5 ▸ h3, h4⟩
      rw [hstep]
      unfold TopicPropSeeded
      constructor
      · rintro ((h1 | ⟨ps2, h2, h3, h4⟩) | ⟨t2, ht2, ps2, h2, h3, h4⟩)
        · exact Or.inl h1
        · exact Or.inr ⟨T, List.mem_cons_self _ _, ps2, h2, h3, h4⟩
        · exact Or.inr ⟨t2, List.mem_cons_of_mem _ ht2, ps2, h2, h3, h4⟩
      · rintro (h1 | ⟨t2, ht2, ps2, h2, h3, h4⟩)
        · exact Or.inl (Or.inl h1)
        · rcases List.mem_cons.mp ht2 with h5 | h5
          · exact Or.inl (Or.inr ⟨ps2, h5 ▸ h2, h3, h4⟩)
          · exact Or.inr ⟨t2, h5, ps2, h2, h3, h4⟩

theorem subset_by_topicsWith_class_mem
    (seedT propT : List (String × List String)) (s : GistSchema)
    (topics : List String) (incl : Bool) (x : String) :
    x ∈ (subset_by_topicsWith seedT propT s topics incl).class_names ↔
      TopicSeeded seedT s topics x ∨
      (∃ c, TopicSeeded seedT s topics c ∧ x ∈ get_ancestors s c) ∨
      (incl = true ∧ ∃ c, TopicSeeded seedT s topics c ∧
        x ∈ get_descendants s c 2) := by
  unfold subset_by_topicsWith
  dsimp only
  cases incl with
  | false =>
      rw [if_neg (by simp)]
      simp only [Finset.mem_union, Finset.mem_biUnion,
        topicsFold_mem_fst seedT propT s topics, Finset.not_mem_empty,
        false_or]
      simp only [Bool.false_eq_true, false_and, or_false]
  | true =>
      rw [if_pos rfl]
      simp only [Finset.mem_union, Finset.mem_biUnion,
        topicsFold_mem_fst seedT propT s topics, Finset.not_mem_empty,
        false_or]
      simp only [true_and, or_assoc]

theorem classesFold_mem (s : GistSchema) :
    ∀ (names : List String) (acc : Finset String) (x : String),
      x ∈ names.foldl (fun acc cls =>
        if (lookupName s.classes cls).isSome then
          insert cls acc ∪ get_ancestors s cls
        else acc) acc ↔
        x ∈ acc ∨ ∃ c ∈ names, (lookupName s.classes c).isSome ∧
          (x = c ∨ x ∈ get_ancestors s c) := by
  intro names
  induction names with
  | nil =>
      intro acc x
      simp
  | cons c t ih =>
      intro acc x
      rw [List.foldl_cons, ih]
      have hstep : x ∈ (if (lookupName s.classes c).isSome then
          insert c acc ∪ get_ancestors s c else acc) ↔
          x ∈ acc ∨ ((lookupName s.classes c).isSome ∧
            (x = c ∨ x ∈ get_ancestors s c)) := by
        by_cases h : (lookupName s.classes c).isSome = true
        · rw [if_pos h]
          simp only [Finset.mem_union, Finset.mem_insert]
          constructor
          · rintro ((h1 | h1) | h1)
            · exact Or.inr ⟨h, Or.inl h1⟩
            · exact Or.inl h1
            · exact Or.inr ⟨h, Or.inr h1⟩
          · rintro (h1 | ⟨_, h1 | h1⟩)
            · exact Or.inl (Or.inr h1)
            · exact Or.inl (Or.inl h1)
            · exact Or.inr h1
        · rw [if_neg h]
          constructor
          · exact Or.inl
          · rintro (h1 | ⟨h1, _⟩)
            · exact h1
            · exact absurd h1 h
      rw [hstep]
      constructor
      · rintro ((h1 | ⟨h1, h2⟩) | ⟨c2, hc2, h3, h4⟩)
        · exact Or.inl h1
        · exact Or.inr ⟨c, List.mem_cons_self _ _, h1, h2⟩
        · exact Or.inr ⟨c2, List.mem_cons_of_mem _ hc2, h3, h4⟩
      · rintro (h1 | ⟨c2, hc2, h3, h4⟩)
        · exact Or.inl (Or.inl h1)
        · rcases List.mem_cons.mp hc2 with h5 | h5
          · subst h5
            exact Or.inl (Or.inr ⟨h3, h4⟩)
          · exact Or.inr ⟨c2, h5, h3, h4⟩

theorem subset_by_classes_class_mem (s : GistSchema) (names : List String)
    (x : String) :
    x ∈ (subset_by_classes s names).class_names ↔
      ∃ c ∈ names, (lookupName s.classes c).isSome ∧
        (x = c ∨ x ∈ get_ancestors s c) := by
  unfold subset_by_classes
  dsimp only
  rw [classesFold_mem]
  simp

/-- C5: for every list of class names, `subset_by_classes` selects exactly
the ancestor-expanded class set that `subset_by_topics` (over a seed table
whose single topic maps to exactly those names, with no topic properties)
selects with descendant expansion turned off. -/
theorem claim_C5_entry_points_agree (s : GistSchema) (names : List String) :
    (subset_by_classes s names).class_names =
      (subset_by_topicsWith [("topic", names)] [] s ["topic"]
        false).class_names := by
  ext x
  rw [subset_by_classes_class_mem, subset_by_topicsWith_class_mem]
  have hseed : ∀ c, TopicSeeded [("topic", names)] s ["topic"] c ↔
      (c ∈ names ∧ (lookupName s.classes c).isSome) := by
    intro c
    unfold TopicSeeded
    constructor
    · rintro ⟨t, ht, seeds, hlk, hc, hk⟩
      have ht2 : t = "topic" := by
        simpa using ht
      subst ht2
      rw [lookupName_cons] at hlk
      rw [if_pos rfl] at hlk
      injection hlk with h5
      have h6 : names = seeds := h5
      exact ⟨h6.symm ▸ hc, hk⟩
    · rintro ⟨hc, hk⟩
      refine ⟨"topic", by simp, names, ?_, hc, hk⟩
      rw [lookupName_cons]
      rw [if_pos rfl]
  simp only [hseed, Bool.false_eq_true, false_and, or_false]
  constructor
  · rintro ⟨c, hc, hk, h | h⟩
    · subst h
      exact Or.inl ⟨hc, hk⟩
    · exact Or.inr ⟨c, ⟨hc, hk⟩, h⟩
  · rintro (⟨hc, hk⟩ | ⟨c, ⟨hc, hk⟩, h⟩)
    · exact ⟨x, hc, hk, Or.inl rfl⟩
    · exact ⟨c, hc, hk, Or.inr h⟩

/-- C6: every seed class of a known topic that exists in the loaded model is
a member of the class set of `subset_by_topics` for that topic; unknown
seed names simply contribute nothing (the membership test is the only use
made of them, so no error can arise). -/
theorem claim_C6_topic_seeds_included (s : GistSchema) (T : String)
    (seeds : List String) (hT : lookupName TOPIC_SEEDS T = some seeds)
    (c : String) (hc : c ∈ seeds)
    (hk : (lookupName s.classes c).isSome) :
    c ∈ (subset_by_topics s [T] true).class_names := by
  unfold subset_by_topics
  rw [subset_by_topicsWith_class_mem]
  exact Or.inl ⟨T, by simp, seeds, hT, hc, hk⟩

theorem claim_C6_witness :
    "TimeInterval" ∈ (subset_by_topics wSchema ["time"] true).class_names :=
  claim_C6_topic_seeds_included wSchema "time"
    ["TimeInterval", "TemporalRelation"] (by decide) "TimeInterval"
    (by decide) (by decide)

/-! ### Every selected name resolves in the model (C10) -/

theorem get_descendants_keys (s : GistSchema) (C : String) (k : Nat) :
    ∀ y ∈ get_descendants s C k, (lookupName s.classes y).isSome := by
  have hstep : ∀ st : Finset String × Finset String,
      (∀ y ∈ st.1, (lookupName s.classes y).isSome) →
      ∀ y ∈ (descStep s st).1, (lookupName s.classes y).isSome := by
    intro st h y hy
    unfold descStep at hy
    rcases Finset.mem_union.mp hy with h1 | h1
    · exact h y h1
    · exact (Finset.mem_filter.mp h1).2.2
  have hiter : ∀ (n : Nat) (st : Finset String × Finset String),
      (∀ y ∈ st.1, (lookupName s.classes y).isSome) →
      ∀ y ∈ (descIter s n st).1, (lookupName s.classes y).isSome := by
    intro n
    induction n with
    | zero =>
        intro st h
        exact h
    | succ m ih =>
        intro st h
        exact ih _ (hstep st h)
  cases hlk : lookupName s.classes C with
  | none =>
      intro y hy
      simp [get_descendants, hlk] at hy
  | some info =>
      intro y hy
      simp only [get_descendants, hlk] at hy
      refine hiter k (∅, info.subclasses.toFinset) ?_ y hy
      intro z hz
      simp at hz

theorem relevancePass_topics_keys
    (seedT propT : List (String × List String)) (s : GistSchema)
    (topics : List String) (cs : Finset String) :
    ∀ m ∈ relevancePass s cs
      (topics.foldl (fun acc topic =>
        (match lookupName seedT topic with
          | some seeds => seeds.foldl (fun a cls =>
              if (lookupName s.classes cls).isSome then insert cls a else a)
              acc.1
          | none => acc.1,
         match lookupName propT topic with
          | some ps2 => ps2.foldl (fun a prop =>
              if (lookupName s.properties prop).isSome then insert prop a
              else a) acc.2
          | none => acc.2)) ((∅, ∅) : Finset String × Finset String)).2,
      (lookupName s.properties m).isSome := by
  intro m hm
  rw [relevancePass_mem] at hm
  rcases hm with hm | ⟨p, hp, hname, _⟩
  · rw [topicsFold_mem_snd seedT propT s topics] at hm
    rcases hm with hm | ⟨_, _, _, _, _, hk⟩
    · simp at hm
    · exact hk
  · refine lookupName_isSome_of_mem (v := p.2) ?_
    rw [← hname]
    simpa using hp

theorem subset_by_topicsWith_prop_keys
    (seedT propT : List (String × List String)) (s : GistSchema)
    (topics : List String) (incl : Bool) :
    ∀ n ∈ (subset_by_topicsWith seedT propT s topics incl).property_names,
      (lookupName s.properties n).isSome := by
  intro n hn
  unfold subset_by_topicsWith at hn
  dsimp only at hn
  rcases Finset.mem_union.mp hn with h1 | h1
  · exact relevancePass_topics_keys seedT propT s topics _ n h1
  · obtain ⟨p, hp, hanc⟩ := Finset.mem_biUnion.mp h1
    exact get_property_ancestors_keys s p n hanc

theorem subset_by_classes_prop_keys (s : GistSchema) (names : List String) :
    ∀ n ∈ (subset_by_classes s names).property_names,
      (lookupName s.properties n).isSome := by
  have hsel : ∀ (cs : Finset String) (m : String),
      m ∈ relevancePass s cs ∅ → (lookupName s.properties m).isSome := by
    intro cs m hm
    rw [relevancePass_mem] at hm
    rcases hm with hm | ⟨p, hp, hname, _⟩
    · simp at hm
    · refine lookupName_isSome_of_mem (v := p.2) ?_
      rw [← hname]
      simpa using hp
  intro n hn
  unfold subset_by_classes at hn
  dsimp only at hn
  rcases Finset.mem_union.mp hn with h1 | h1
  · exact hsel _ n h1
  · obtain ⟨p, hp, hanc⟩ := Finset.mem_biUnion.mp h1
    exact get_property_ancestors_keys s p n hanc

/-- C10: every name in a `SchemaSubset` produced by `subset_by_topics` or
`subset_by_classes` resolves in the underlying model — class names in the
class registry, property names in the property registry — for every input
topic or class-name list. -/
theorem claim_C10_subset_names_resolve (s : GistSchema) :
    (∀ (topics : List String) (incl : Bool) (n : String),
      n ∈ (subset_by_topics s topics incl).class_names →
        (lookupName s.classes n).isSome) ∧
    (∀ (topics : List String) (incl : Bool) (n : String),
      n ∈ (subset_by_topics s topics incl).property_names →
        (lookupName s.properties n).isSome) ∧
    (∀ (names : List String) (n : String),
      n ∈ (subset_by_classes s names).class_names →
        (lookupName s.classes n).isSome) ∧
    (∀ (names : List String) (n : String),
      n ∈ (subset_by_classes s names).property_names →
        (lookupName s.properties n).isSome) := by
  refine ⟨?_, ?_, ?_, ?_⟩
  · intro topics incl n hn
    unfold subset_by_topics at hn
    rw [subset_by_topicsWith_class_mem] at hn
    rcases hn with ⟨_, _, _, _, _, hk⟩ | ⟨c, _, hanc⟩ | ⟨_, c, _, hdesc⟩
    · exact hk
    · exact get_ancestors_keys s c n hanc
    · exact get_descendants_keys s c 2 n hdesc
  · intro topics incl n hn
    exact subset_by_topicsWith_prop_keys TOPIC_SEEDS TOPIC_PROPERTIES s
      topics incl n hn
  · intro names n hn
    rw [subset_by_classes_class_mem] at hn
    obtain ⟨c, _, hk, h | h⟩ := hn
    · exact h ▸ hk
    · exact get_ancestors_keys s c n h
  · intro names n hn
    exact subset_by_classes_prop_keys s names n hn

theorem claim_C10_witness :
    (lookupName wSchema.classes "TimeInterval").isSome = true :=
  (claim_C10_subset_names_resolve wSchema).1 ["time"] true "TimeInterval"
    (by decide)

/-! ### The empty subset and rendering (C4, C7) -/

theorem relevancePass_empty (s : GistSchema) : relevancePass s ∅ ∅ = ∅ := by
  ext q
  rw [relevancePass_mem]
  simp

theorem subset_by_topicsWith_nil (seedT propT : List (String × List String))
    (s : GistSchema) (incl : Bool) :
    subset_by_topicsWith seedT propT s [] incl = ⟨s, ∅, ∅⟩ := by
  unfold subset_by_topicsWith
  simp only [List.foldl_nil, Finset.biUnion_empty, Finset.empty_union,
    Finset.union_empty, ite_self]
  rw [relevancePass_empty]
  simp

theorem to_prompt_text_empty (s : GistSchema) (len : Nat) :
    to_prompt_text ⟨s, ∅, ∅⟩ len =
      some "# gist Schema (subset)\nPrefix: gist\nNamespace: https://w3id.org/semanticarts/ns/ontology/gist/\n\n## Classes\n" := by
  unfold to_prompt_text
  simp only [Finset.sort_empty, List.filter_nil, List.foldl_nil]
  set_option maxRecDepth 4000 in rfl

/-- C4 (counterexample to the claim as stated): on the empty model, the
empty topic list renders to a text that does not contain the
`## Object Properties` section header at all — the renderer omits the
property section headers for an empty subset instead of emitting them
empty, so the output does not consist of the claimed two empty section
headers. -/
theorem claim_C4_counterexample :
    to_prompt_text (subset_by_topics emptySchema [] true) 120 =
      some "# gist Schema (subset)\nPrefix: gist\nNamespace: https://w3id.org/semanticarts/ns/ontology/gist/\n\n## Classes\n" ∧
    ¬ (("## Object Properties").toList <:+:
      ("# gist Schema (subset)\nPrefix: gist\nNamespace: https://w3id.org/semanticarts/ns/ontology/gist/\n\n## Classes\n").toList) := by
  constructor
  · unfold subset_by_topics
    rw [subset_by_topicsWith_nil]
    exact to_prompt_text_empty emptySchema 120
  · set_option maxRecDepth 100000 in decide

/-- C4 (amended): an empty topic list yields, without error, a subset whose
class and property sets are both empty, and rendering that subset succeeds
and produces exactly the fixed preamble with the empty `## Classes`
section; the property section headers are omitted, not emitted empty. -/
theorem claim_C4_empty_topics (s : GistSchema) (len : Nat) :
    (subset_by_topics s [] true).class_names = ∅ ∧
    (subset_by_topics s [] true).property_names = ∅ ∧
    to_prompt_text (subset_by_topics s [] true) len =
      some "# gist Schema (subset)\nPrefix: gist\nNamespace: https://w3id.org/semanticarts/ns/ontology/gist/\n\n## Classes\n" := by
  unfold subset_by_topics
  rw [subset_by_topicsWith_nil]
  exact ⟨rfl, rfl, to_prompt_text_empty s len⟩

/-- C7: rendering is deterministic.  `to_prompt_text` is a pure function of
the subset (schema plus the two name sets) and the length bound: rendering
the same subset twice yields identical text, and any two subsets over the
same model with equal class and property name sets render identical text. -/
theorem claim_C7_render_deterministic (a b : SchemaSubset)
    (hs : a.schema = b.schema) (hc : a.class_names = b.class_names)
    (hp : a.property_names = b.property_names) (len : Nat) :
    to_prompt_text a len = to_prompt_text a len ∧
    to_prompt_text a len = to_prompt_text b len := by
  refine ⟨rfl, ?_⟩
  have hab : a = b := by
    cases a
    cases b
    simp_all
  rw [hab]

theorem claim_C7_witness :
    to_prompt_text ⟨wSchema, ∅, ∅⟩ 5 = to_prompt_text ⟨wSchema, ∅, ∅⟩ 5 :=
  (claim_C7_render_deterministic ⟨wSchema, ∅, ∅⟩ ⟨wSchema, ∅, ∅⟩ rfl rfl rfl
    5).2
